import Mathlib

/-!
Verification development for the photoTidy core pipeline (scan, plan,
execute, undo).  The Rust sources under src-tauri/src are shallowly
embedded as pure Lean functions: the filesystem is a finite map from
POSIX path strings to file contents, the SQLite store is a record of
lists, content hashing and EXIF extraction are abstract functions of the
file content, and fallible IO is threaded through explicit oracles.
-/

namespace PhotoTidy

/-- Plan entry status, mirroring db.rs PlanStatus. -/
inductive PlanStatus where
  | Pending
  | Copied
  | Moved
  | Failed
deriving DecidableEq, Repr

/-- Mirrors PlanStatus.as_str in db.rs. -/
def PlanStatus.asStr : PlanStatus → String
  | .Pending => "pending"
  | .Copied => "copied"
  | .Moved => "moved"
  | .Failed => "failed"

/-- One inventory row, mirroring db.rs InventoryRecord. -/
structure InventoryRecord where
  id : Option Nat
  file_hash : String
  blake3_hash : Option String
  file_size : Nat
  file_name : String
  relative_path : String
  captured_at : Option String
  modified_at : String
  exif_model : Option String
  exif_make : Option String
  exif_artist : Option String
  is_duplicate : Bool
deriving DecidableEq, Repr

/-- A default record used with List.getD when indexing record lists. -/
def defaultRecord : InventoryRecord :=
  { id := none, file_hash := "", blake3_hash := none, file_size := 0,
    file_name := "", relative_path := "", captured_at := none,
    modified_at := "", exif_model := none, exif_make := none,
    exif_artist := none, is_duplicate := false }

/-- One discovered file with its metadata and (abstract) content,
mirroring scan.rs FileSnapshot together with the bytes the hash
functions would read. -/
structure Snapshot where
  relative_path : String
  file_name : String
  file_size : Nat
  modified_at : String
  content : String
deriving DecidableEq, Repr

/-- Embedded capture metadata, mirroring scan.rs ExifMetadata. -/
structure ExifMetadata where
  captured_at : Option String
  camera_model : Option String
  camera_make : Option String
  artist : Option String
deriving DecidableEq, Repr

/-- Hashing and metadata oracles: md5 and blake3 are abstract functions
of the file content (mirroring md5_file and blake3_file, which read the
file bytes), exif extracts embedded metadata from the content, and
hashFailure injects per-file IO failures of the hashing step (keyed by
relative path). -/
structure HashEnv where
  md5 : String → String
  blake3 : String → String
  exif : String → ExifMetadata
  hashFailure : String → Option String

/-- Byte-wise lexicographic comparison of strings (the Rust Ord used to
sort paths and timestamps), standing on the character lists. -/
def strLeList : List Char → List Char → Bool
  | [], _ => true
  | _ :: _, [] => false
  | a :: as, b :: bs =>
    if a.toNat < b.toNat then true
    else if b.toNat < a.toNat then false
    else strLeList as bs

def strLe (a b : String) : Bool :=
  strLeList a.data b.data

/-- String ends with a path separator, standing on the character
list. -/
def endsWithSep (s : String) : Bool :=
  s.data.getLast? == some '/'

/-- Insertion step of a stable insertion sort; models the order produced
by the stable standard-library sorts used in the source. -/
def sortInsert (le : α → α → Bool) (a : α) : List α → List α
  | [] => [a]
  | b :: l => if le b a then b :: sortInsert le a l else a :: b :: l

/-- Stable sort by a boolean comparator; models Vec sort and sort_by. -/
def sortBy (le : α → α → Bool) : List α → List α
  | [] => []
  | a :: l => sortInsert le a (sortBy le l)

/-! ## Scanner (scan.rs) -/
/-- Association map from relative paths to inventory records, modelling
the HashMap built at the start of perform_scan. -/
abbrev AssocMap := List (String × InventoryRecord)

/-- Lookup by key. -/
def lookupMap (m : AssocMap) (k : String) : Option InventoryRecord :=
  (m.find? (fun p => p.1 == k)).map (fun p => p.2)

/-- HashMap insertion: replaces any existing binding of the key. -/
def mapInsert (m : AssocMap) (k : String) (v : InventoryRecord) : AssocMap :=
  (k, v) :: m.filter (fun p => !(p.1 == k))

/-- HashMap remove: returns the bound record, if any, and deletes the
binding; mirrors existing_map.remove in perform_scan. -/
def mapRemove (m : AssocMap) (k : String) :
    Option InventoryRecord × AssocMap :=
  match m.find? (fun p => p.1 == k) with
  | some p => (some p.2, m.filter (fun q => !(q.1 == k)))
  | none => (none, m)

/-- Builds the relative-path-keyed map from the stored inventory,
mirroring the collect into a HashMap in perform_scan (later duplicate
keys would overwrite earlier ones). -/
def buildMap (records : List InventoryRecord) : AssocMap :=
  records.foldl (fun m r => mapInsert m r.relative_path r) []

/-- File enumeration, mirroring enumerate_files: a missing root yields
no files, otherwise the discovered files are sorted lexicographically by
path.  Extension filtering and per-file discovery are abstracted into
the given snapshot list. -/
def enumerateFiles (rootExists : Bool) (files : List Snapshot) :
    List Snapshot :=
  if rootExists then
    sortBy (fun a b => strLe a.relative_path b.relative_path) files
  else []

/-- The reconciliation loop of perform_scan: each snapshot whose
relative path is bound in the map to a record with identical size and
modified timestamp and a recorded strong hash is reused (with name,
path, size and timestamp refreshed and the duplicate flag cleared);
every other snapshot is queued for hashing.  The map binding is removed
as soon as the path matches, whether or not the row qualifies for
reuse.  Returns (reused records, snapshots to process, skipped count,
remaining map). -/
def reconcile (m : AssocMap) :
    List Snapshot →
      List InventoryRecord × List Snapshot × Nat × AssocMap
  | [] => ([], [], 0, m)
  | s :: rest =>
    match mapRemove m s.relative_path with
    | (some existing, m') =>
      if existing.file_size = s.file_size ∧
          existing.modified_at = s.modified_at ∧
          existing.blake3_hash.isSome then
        let record := { existing with
          file_name := s.file_name,
          relative_path := s.relative_path,
          file_size := s.file_size,
          modified_at := s.modified_at,
          is_duplicate := false }
        let (reused, toProc, skipped, mFin) := reconcile m' rest
        (record :: reused, toProc, skipped + 1, mFin)
      else
        let (reused, toProc, skipped, mFin) := reconcile m' rest
        (reused, s :: toProc, skipped, mFin)
    | (none, m') =>
      let (reused, toProc, skipped, mFin) := reconcile m' rest
      (reused, s :: toProc, skipped, mFin)

/-- Hashing and metadata extraction for one snapshot, mirroring the body
of the parallel map in hash_and_extract: both hashes are computed from
the content, the capture timestamp falls back to the modified timestamp,
and an IO failure of either hash aborts with an error. -/
def hashSnapshot (env : HashEnv) (s : Snapshot) :
    Except String InventoryRecord :=
  match env.hashFailure s.relative_path with
  | some e => .error e
  | none =>
    let ex := env.exif s.content
    .ok { id := none,
          file_hash := env.md5 s.content,
          blake3_hash := some (env.blake3 s.content),
          file_size := s.file_size,
          file_name := s.file_name,
          relative_path := s.relative_path,
          captured_at := some (ex.captured_at.getD s.modified_at),
          modified_at := s.modified_at,
          exif_model := ex.camera_model,
          exif_make := ex.camera_make,
          exif_artist := ex.artist,
          is_duplicate := false }

/-- hash_and_extract: maps hashSnapshot over the pending snapshots,
collecting records in order; any failure aborts the whole collection,
mirroring collect over a Result. -/
def hashAndExtract (env : HashEnv) :
    List Snapshot → Except String (List InventoryRecord)
  | [] => .ok []
  | s :: rest =>
    match hashSnapshot env s with
    | .error e => .error e
    | .ok r =>
      match hashAndExtract env rest with
      | .error e => .error e
      | .ok rs => .ok (r :: rs)

/-- Inner loop of mark_duplicates: a record whose legacy hash was
already seen is flagged as a duplicate, the first occurrence of each
hash is flagged as not a duplicate; also counts the duplicates. -/
def markDupGo (seen : List String) :
    List InventoryRecord → List InventoryRecord × Nat
  | [] => ([], 0)
  | r :: rest =>
    if seen.contains r.file_hash then
      let (l, n) := markDupGo seen rest
      ({ r with is_duplicate := true } :: l, n + 1)
    else
      let (l, n) := markDupGo (r.file_hash :: seen) rest
      ({ r with is_duplicate := false } :: l, n)

/-- mark_duplicates from scan.rs. -/
def markDuplicates (records : List InventoryRecord) :
    List InventoryRecord × Nat :=
  markDupGo [] records

/-- Comparator of the final stable sort of perform_scan: by capture
timestamp (falling back to the modified timestamp), ties broken by
relative path. -/
def scanLe (a b : InventoryRecord) : Bool :=
  let ak := a.captured_at.getD a.modified_at
  let bk := b.captured_at.getD b.modified_at
  if ak = bk then strLe a.relative_path b.relative_path else strLe ak bk

/-- Result of a scan: the returned summary together with the inventory
stored by replace_inventory. -/
structure ScanSummary where
  total_files : Nat
  hashed_files : Nat
  skipped_files : Nat
  duplicate_files : Nat
deriving DecidableEq, Repr

structure ScanResult where
  summary : ScanSummary
  inventory : List InventoryRecord
deriving DecidableEq, Repr

/-- perform_scan from scan.rs: enumerate (empty when the root is
missing), reconcile against the prior inventory, hash the remainder,
mark duplicates over the reused-then-fresh concatenation, stable-sort,
and replace the inventory.  Per-file metadata reads are assumed to
succeed (build_snapshots failures are skip-only and not modelled), so
the snapshot list itself is the input. -/
def performScan (env : HashEnv) (rootExists : Bool)
    (files : List Snapshot) (prior : List InventoryRecord) :
    Except String ScanResult :=
  let snapshots := enumerateFiles rootExists files
  if snapshots.isEmpty then
    .ok { summary := { total_files := 0, hashed_files := 0,
                       skipped_files := 0, duplicate_files := 0 },
          inventory := [] }
  else
    let total := snapshots.length
    let m := buildMap prior
    let (reused, toProcess, skipped, _) := reconcile m snapshots
    let hashTotal := toProcess.length
    match hashAndExtract env toProcess with
    | .error e => .error e
    | .ok hashed =>
      let all := reused ++ hashed
      let (marked, duplicates) := markDuplicates all
      let sorted := sortBy scanLe marked
      .ok { summary := { total_files := total,
                         hashed_files := hashTotal,
                         skipped_files := skipped,
                         duplicate_files := duplicates },
            inventory := sorted }

/-! ## Planner (plan.rs, utils/path.rs, utils/json.rs) -/
/-- PathBuf::join on POSIX-style path strings. -/
def pathJoin (dir name : String) : String :=
  if dir = "" then name
  else if endsWithSep dir then dir ++ name
  else dir ++ "/" ++ name

/-- ensure_trailing_separator from utils/path.rs: appends a separator to
a non-empty path that does not already end with one. -/
def ensureTrailingSeparator (path : String) : String :=
  if path = "" then ""
  else if path = "/" then path
  else if endsWithSep path then path
  else path ++ "/"

/-- bucket_from_timestamp: the part of the timestamp before the first
underscore separator. -/
def bucketFromTimestamp (timestamp : String) : String :=
  String.mk (timestamp.data.takeWhile (fun c => !(c == '_')))

/-- rsplit_once at the last dot: returns (stem, ext) when the name
contains a dot. -/
def rsplitDot (s : String) : Option (String × String) :=
  if '.' ∈ s.data then
    let revExt := s.data.reverse.takeWhile (fun c => !(c == '.'))
    some (String.mk ((s.data.reverse.drop (revExt.length + 1)).reverse),
          String.mk revExt.reverse)
  else none

/-- add_duplicate_suffix from plan.rs: inserts a dup marker before the
final extension, or appends it when the name has no extension. -/
def addDuplicateSuffix (name : String) (attempt : Nat) : String :=
  let suffix := "_dup" ++ toString attempt
  match rsplitDot name with
  | some (stem, ext) => stem ++ suffix ++ "." ++ ext
  | none => name ++ suffix

/-- The candidate tried at a given attempt number by
reserve_target_name: the base name first, then suffixed variants. -/
def dupCandidate (base : String) (attempt : Nat) : String :=
  if attempt = 0 then base else addDuplicateSuffix base attempt

/-- The loop of reserve_target_name, made total with explicit fuel: the
source loop runs until a fresh (directory ++ name) key is found, which
in the shallow embedding becomes none when the fuel is exhausted.  The
reserved-keys set is a list; a successful reservation returns the chosen
name and the set extended with its key. -/
def reserveTargetGo (used : List String) (path base : String) :
    Nat → Nat → Option (String × List String)
  | _, 0 => none
  | attempt, fuel + 1 =>
    let candidate := dupCandidate base attempt
    let key := path ++ candidate
    if key ∈ used then reserveTargetGo used path base (attempt + 1) fuel
    else some (candidate, key :: used)

/-- reserve_target_name from plan.rs. -/
def reserveTargetName (fuel : Nat) (used : List String)
    (path base : String) : Option (String × List String) :=
  reserveTargetGo used path base 0 fuel

/-- A plan row as handed to replace_plan_entries, mirroring db.rs
NewPlanEntry. -/
structure NewPlanEntry where
  file_hash : String
  file_size : Nat
  origin_file_name : String
  origin_full_path : String
  target_path : String
  target_file_name : String
  is_duplicate : Bool
deriving DecidableEq, Repr

/-- The configuration fields of AppConfig consumed by generate_plan,
as POSIX path strings.  root_dir is the resolved image root (the sample
root when set, else image_root). -/
structure PlanConfig where
  output_root : String
  duplicates_dir : String
  root_dir : String
  target_plan_path : String
deriving Repr

/-- Filesystem operations performed outside the store, recorded as a
trace for the snapshot-file claims. -/
inductive FsOp where
  | ensureParentDir (path : String)
  | writeFile (path : String)
  | renameFile (src dst : String)
deriving DecidableEq, Repr

/-- write_json from utils/json.rs: ensures the parent directory exists,
then writes the serialized value directly to the destination path with
a single fs write. -/
def writeJsonOps (path : String) : List FsOp :=
  [.ensureParentDir path, .writeFile path]

/-- The per-record loop of generate_plan, threading the reserved-name
set: derives the date bucket from (capture, else modified) timestamp,
routes duplicates to the duplicates directory and the rest to a bucket
under the output root (with trailing separator), builds the base name
timestamp.original_name, reserves a collision-free target name, and
emits the plan row. -/
def planLoop (cfg : PlanConfig) (fuel : Nat) :
    List InventoryRecord → List String → Option (List NewPlanEntry)
  | [], _ => some []
  | r :: rest, used =>
    let timestamp := r.captured_at.getD r.modified_at
    let dateBucket := bucketFromTimestamp timestamp
    let targetDir := if r.is_duplicate then cfg.duplicates_dir
      else pathJoin cfg.output_root dateBucket
    let targetDirStr := ensureTrailingSeparator targetDir
    let baseName := timestamp ++ "." ++ r.file_name
    match reserveTargetName fuel used targetDirStr baseName with
    | none => none
    | some (uniqueName, used') =>
      match planLoop cfg fuel rest used' with
      | none => none
      | some entries =>
        some ({ file_hash := r.file_hash,
                file_size := r.file_size,
                origin_file_name := r.file_name,
                origin_full_path := pathJoin cfg.root_dir r.relative_path,
                target_path := targetDirStr,
                target_file_name := uniqueName,
                is_duplicate := r.is_duplicate } :: entries)

/-- Output of generate_plan needed by the claims: the plan rows stored
by replace_plan_entries and the trace of filesystem operations used to
write the plan snapshot file. -/
structure PlanOutput where
  entries : List NewPlanEntry
  snapshotOps : List FsOp
deriving DecidableEq, Repr

/-- generate_plan from plan.rs: an empty inventory stores an empty plan
and still writes the (empty) snapshot file; otherwise every inventory
record becomes one plan row and the snapshot file is written on
success.  The fuel bounds the name-reservation loop. -/
def generatePlan (cfg : PlanConfig) (fuel : Nat)
    (inventory : List InventoryRecord) : Option PlanOutput :=
  if inventory.isEmpty then
    some { entries := [], snapshotOps := writeJsonOps cfg.target_plan_path }
  else
    match planLoop cfg fuel inventory [] with
    | none => none
    | some entries =>
      some { entries := entries,
             snapshotOps := writeJsonOps cfg.target_plan_path }

/-! ## Executor and undo (execute.rs, db.rs store operations) -/
/-- Error kinds distinguished by the executor, abstracting
std::io::ErrorKind: the cross-device rename failure versus everything
else. -/
inductive ErrKind where
  | crossDeviceLink
  | otherKind
deriving DecidableEq, Repr

/-- An IO error with its kind and display message. -/
structure IoError where
  kind : ErrKind
  msg : String
deriving DecidableEq, Repr

/-- The filesystem: a finite map from absolute POSIX paths to file
contents, as an association list with unique keys maintained by the
operations.  Directories are not tracked (create_dir_all never fails in
the model). -/
abbrev FSt := List (String × String)

def fsLookup (fs : FSt) (p : String) : Option String :=
  (fs.find? (fun q => q.1 == p)).map (fun q => q.2)

def fsInsert (fs : FSt) (p c : String) : FSt :=
  (p, c) :: fs.filter (fun q => !(q.1 == p))

def fsRemove (fs : FSt) (p : String) : FSt :=
  fs.filter (fun q => !(q.1 == p))

/-- IO failure oracles for the filesystem primitives invoked by the
executor: each returns the error injected into that call, or none when
the call succeeds (subject to the model preconditions). -/
structure IoEnv where
  renameFailure : String → String → Option IoError
  copyFailure : String → String → Option IoError
  removeFailure : String → Option IoError

/-- fs::rename: fails with the injected error if any, fails when the
source is missing, and otherwise moves the binding (overwriting any
file at the destination).  On failure the filesystem is unchanged. -/
def renameSt (env : IoEnv) (fs : FSt) (src dst : String) :
    FSt × Option IoError :=
  match env.renameFailure src dst with
  | some e => (fs, some e)
  | none =>
    match fsLookup fs src with
    | none => (fs, some { kind := .otherKind, msg := "origin file missing" })
    | some c => (fsInsert (fsRemove fs src) dst c, none)

/-- fs::copy: fails with the injected error if any, fails when the
source is missing, otherwise duplicates the content at the destination
(overwriting it). -/
def copyFileSt (env : IoEnv) (fs : FSt) (src dst : String) :
    FSt × Option IoError :=
  match env.copyFailure src dst with
  | some e => (fs, some e)
  | none =>
    match fsLookup fs src with
    | none => (fs, some { kind := .otherKind, msg := "origin file missing" })
    | some c => (fsInsert fs dst c, none)

/-- fs::remove_file. -/
def removeFileSt (env : IoEnv) (fs : FSt) (p : String) :
    FSt × Option IoError :=
  match env.removeFailure p with
  | some e => (fs, some e)
  | none => (fsRemove fs p, none)

/-- should_fallback_copy (unix cfg): only a cross-device rename failure
triggers the copy fallback. -/
def shouldFallbackCopy (e : IoError) : Bool :=
  e.kind == ErrKind.crossDeviceLink

/-- The copy-then-delete-source fallback block of move_file: a partial
failure (copy done, delete failed) leaves the copied file in place. -/
def copyThenDelete (env : IoEnv) (fs : FSt) (src dst : String) :
    FSt × Option IoError :=
  match copyFileSt env fs src dst with
  | (fs1, some e) => (fs1, some e)
  | (fs1, none) => removeFileSt env fs1 src

/-- move_file from execute.rs: attempt an atomic rename; on failure,
fall back to copy-then-delete exactly when should_fallback_copy accepts
the error, otherwise propagate the rename error. -/
def moveFileSt (env : IoEnv) (fs : FSt) (src dst : String) :
    FSt × Option IoError :=
  match renameSt env fs src dst with
  | (fs1, none) => (fs1, none)
  | (fs1, some e) =>
    if shouldFallbackCopy e then copyThenDelete env fs src dst
    else (fs1, some e)

/-- A stored plan row, mirroring db.rs PlanRecord. -/
structure PlanRecord where
  id : Nat
  file_hash : String
  file_size : Nat
  origin_file_name : String
  origin_full_path : String
  target_path : String
  target_file_name : String
  is_duplicate : Bool
  status : PlanStatus
deriving DecidableEq, Repr

/-- An operation_logs row as appended by the executor. -/
structure OperationLog where
  plan_entry_id : Nat
  operation : String
  status : String
  error : Option String
deriving DecidableEq, Repr

/-- The persistent store visible to the executor: plan rows in id
order, the append-only operation log, and the app_meta key/value
table. -/
structure Db where
  entries : List PlanRecord
  logs : List OperationLog
  meta : List (String × String)
deriving DecidableEq, Repr

/-- plan_entries_with_status: an empty filter returns all rows,
otherwise the rows whose status is in the filter, in stored (id)
order. -/
def planEntriesWithStatus (db : Db) (statuses : List PlanStatus) :
    List PlanRecord :=
  if statuses.isEmpty then db.entries
  else db.entries.filter (fun e => statuses.contains e.status)

/-- update_plan_status: sets the status of the row with the given id. -/
def updatePlanStatus (db : Db) (id : Nat) (status : PlanStatus) : Db :=
  { db with entries := db.entries.map (fun e =>
      if e.id = id then { e with status := status } else e) }

/-- append_operation_log. -/
def appendLog (db : Db) (row : OperationLog) : Db :=
  { db with logs := db.logs ++ [row] }

/-- set_meta: INSERT OR REPLACE into app_meta. -/
def setMeta (db : Db) (k v : String) : Db :=
  { db with meta := (k, v) :: db.meta.filter (fun p => !(p.1 == k)) }

/-- record_failure from execute.rs: optionally set the entry status,
then append a failure log row carrying the error message. -/
def recordFailure (db : Db) (e : PlanRecord) (status : Option PlanStatus)
    (operation msg : String) : Db :=
  let db1 := match status with
    | some st => updatePlanStatus db e.id st
    | none => db
  appendLog db1 { plan_entry_id := e.id, operation := operation,
                  status := "failure", error := some msg }

/-- Execution mode, mirroring ExecutionMode. -/
inductive ExecutionMode where
  | copyMode
  | moveMode
deriving DecidableEq, Repr

def ExecutionMode.asStr : ExecutionMode → String
  | .copyMode => "copy"
  | .moveMode => "move"

def ExecutionMode.successStatus : ExecutionMode → PlanStatus
  | .copyMode => .Copied
  | .moveMode => .Moved

/-- The state threaded through the execute loop: filesystem, store,
and the two tallies. -/
structure ExecState where
  fs : FSt
  db : Db
  succeeded : Nat
  failed : Nat

/-- The absolute target path of a plan row: target directory joined
with the target file name. -/
def targetFull (e : PlanRecord) : String :=
  pathJoin e.target_path e.target_file_name

/-- One iteration of the run_execution loop over a Pending entry:
pre-flight existence checks (origin missing, target pre-existing), the
dry-run early tally, and the copy/move with status update and log
append on both outcomes. -/
def execStep (mode : ExecutionMode) (dryRun : Bool) (env : IoEnv)
    (st : ExecState) (e : PlanRecord) : ExecState :=
  let originPath := e.origin_full_path
  let targetPath := targetFull e
  let originExists := (fsLookup st.fs originPath).isSome
  let targetExists := (fsLookup st.fs targetPath).isSome
  if dryRun then
    if !originExists || targetExists then
      { st with failed := st.failed + 1 }
    else
      { st with succeeded := st.succeeded + 1 }
  else if !originExists then
    { st with
      failed := st.failed + 1
      db := recordFailure st.db e (some .Failed) mode.asStr
        "origin file missing" }
  else if targetExists then
    { st with
      failed := st.failed + 1
      db := recordFailure st.db e (some .Failed) mode.asStr
        "target file already exists" }
  else
    let opResult := match mode with
      | .copyMode => copyFileSt env st.fs originPath targetPath
      | .moveMode => moveFileSt env st.fs originPath targetPath
    match opResult with
    | (fs', none) =>
      { st with
        fs := fs'
        succeeded := st.succeeded + 1
        db := appendLog (updatePlanStatus st.db e.id mode.successStatus)
          { plan_entry_id := e.id, operation := mode.asStr,
            status := "success", error := none } }
    | (fs', some err) =>
      { st with
        fs := fs'
        failed := st.failed + 1
        db := recordFailure st.db e (some .Failed) mode.asStr err.msg }

/-- The execute loop over the Pending entries. -/
def execRun (mode : ExecutionMode) (dryRun : Bool) (env : IoEnv) :
    ExecState → List PlanRecord → ExecState
  | st, [] => st
  | st, e :: rest =>
    execRun mode dryRun env (execStep mode dryRun env st e) rest

/-- The summary returned by run_execution. -/
structure ExecutionSummary where
  mode : ExecutionMode
  dry_run : Bool
  total_entries : Nat
  processed_entries : Nat
  succeeded : Nat
  failed : Nat
  duplicate_entries : Nat
deriving DecidableEq, Repr

/-- run_execution from execute.rs: read the Pending rows, return a
zero summary when there are none, otherwise process each row, then
persist the plan schema version to metadata (in dry runs too) and
report the tallies. -/
def runExecution (mode : ExecutionMode) (dryRun : Bool) (env : IoEnv)
    (fs0 : FSt) (db0 : Db) : ExecutionSummary × FSt × Db :=
  let entries := planEntriesWithStatus db0 [.Pending]
  let total := entries.length
  if total = 0 then
    ({ mode := mode, dry_run := dryRun, total_entries := 0,
       processed_entries := 0, succeeded := 0, failed := 0,
       duplicate_entries := 0 }, fs0, db0)
  else
    let st := execRun mode dryRun env
      { fs := fs0, db := db0, succeeded := 0, failed := 0 } entries
    let db1 := setMeta st.db "plan_schema_version" "1"
    ({ mode := mode, dry_run := dryRun, total_entries := total,
       processed_entries := total, succeeded := st.succeeded,
       failed := st.failed,
       duplicate_entries := (entries.filter (fun e => e.is_duplicate)).length },
     st.fs, db1)

/-- The state threaded through the undo loop. -/
structure UndoState where
  fs : FSt
  db : Db
  restored : Nat
  missing : Nat
  failed : Nat

/-- One iteration of the undo_moves loop over a Moved entry: a missing
target is a recorded failure without a status change; otherwise the
file is moved back target to origin with the same fallback policy as
execute, resetting the status to Pending on success and recording a
failure (status unchanged) otherwise. -/
def undoStep (env : IoEnv) (st : UndoState) (e : PlanRecord) :
    UndoState :=
  let originPath := e.origin_full_path
  let targetPath := targetFull e
  if (fsLookup st.fs targetPath).isNone then
    { st with
      missing := st.missing + 1
      db := recordFailure st.db e none "undo" "target missing during undo" }
  else
    match moveFileSt env st.fs targetPath originPath with
    | (fs', none) =>
      { st with
        fs := fs'
        restored := st.restored + 1
        db := appendLog (updatePlanStatus st.db e.id .Pending)
          { plan_entry_id := e.id, operation := "undo",
            status := "success", error := none } }
    | (fs', some err) =>
      { st with
        fs := fs'
        failed := st.failed + 1
        db := recordFailure st.db e none "undo" err.msg }

/-- The undo loop over the Moved entries. -/
def undoRun (env : IoEnv) : UndoState → List PlanRecord → UndoState
  | st, [] => st
  | st, e :: rest => undoRun env (undoStep env st e) rest

/-- The summary returned by undo_moves. -/
structure UndoSummary where
  processed_entries : Nat
  restored : Nat
  missing : Nat
  failed : Nat
deriving DecidableEq, Repr

/-- undo_moves from execute.rs: read the Moved rows, return a zero
summary when there are none, otherwise process each row and report the
tallies. -/
def undoMoves (env : IoEnv) (fs0 : FSt) (db0 : Db) :
    UndoSummary × FSt × Db :=
  let entries := planEntriesWithStatus db0 [.Moved]
  let total := entries.length
  if total = 0 then
    ({ processed_entries := 0, restored := 0, missing := 0, failed := 0 },
     fs0, db0)
  else
    let st := undoRun env
      { fs := fs0, db := db0, restored := 0, missing := 0, failed := 0 }
      entries
    ({ processed_entries := total, restored := st.restored,
       missing := st.missing, failed := st.failed }, st.fs, st.db)

/-! ## Helper lemmas: filesystem and store primitives -/
/-- The status currently stored for a plan row id. -/
def statusOf (db : Db) (id : Nat) : Option PlanStatus :=
  (db.entries.find? (fun e => e.id == id)).map (fun e => e.status)

/-- An IO environment in which every filesystem primitive succeeds. -/
def envNone : IoEnv :=
  { renameFailure := fun _ _ => none, copyFailure := fun _ _ => none,
    removeFailure := fun _ => none }

/-- An IO environment in which every rename fails cross-device. -/
def envCross : IoEnv :=
  { renameFailure := fun _ _ =>
      some { kind := .crossDeviceLink, msg := "cross-device link" },
    copyFailure := fun _ _ => none, removeFailure := fun _ => none }

/-- A sample pending plan row used by concrete checks. -/
def cxEntry : PlanRecord :=
  { id := 1, file_hash := "h", file_size := 3, origin_file_name := "a.jpg",
    origin_full_path := "/r/a.jpg", target_path := "/o/2024/",
    target_file_name := "t.a.jpg", is_duplicate := false,
    status := .Pending }

def cxDb : Db := { entries := [cxEntry], logs := [], meta := [] }

/-- A counterexample state for the dry-run frame claim: one Pending
entry and empty metadata. -/
def cxFsOrigin : FSt := [("/r/a.jpg", "x")]

/-- The loop state reached by run_execution just before processing the
entry at position i of the Pending list. -/
def execStateAt (mode : ExecutionMode) (dryRun : Bool) (env : IoEnv)
    (fs0 : FSt) (db0 : Db) (i : Nat) : ExecState :=
  execRun mode dryRun env
    { fs := fs0, db := db0, succeeded := 0, failed := 0 }
    ((planEntriesWithStatus db0 [PlanStatus.Pending]).take i)

/-- A filesystem in which only the target file of cxEntry exists. -/
def cxFsTargetOnly : FSt := [("/o/2024/t.a.jpg", "old")]

/-- A filesystem in which both the origin and the target of cxEntry
exist. -/
def wFs5 : FSt := [("/r/a.jpg", "x"), ("/o/2024/t.a.jpg", "old")]

/-- The loop state reached by undo_moves just before processing the
entry at position i of the Moved list. -/
def undoStateAt (env : IoEnv) (fs0 : FSt) (db0 : Db) (i : Nat) :
    UndoState :=
  undoRun env
    { fs := fs0, db := db0, restored := 0, missing := 0, failed := 0 }
    ((planEntriesWithStatus db0 [PlanStatus.Moved]).take i)

/-- A Moved copy of the sample entry, with its target file on disk and
its origin absent. -/
def cxEntryMoved : PlanRecord := { cxEntry with status := .Moved }

def cxDbMoved : Db := { entries := [cxEntryMoved], logs := [], meta := [] }

def cxFsMoved : FSt := [("/o/2024/t.a.jpg", "data")]

/-- A sample plan configuration. -/
def pCfg : PlanConfig :=
  { output_root := "/out", duplicates_dir := "/out/duplicates",
    root_dir := "/imgs", target_plan_path := "/out/plan.json" }

/-- Builds an inventory record with the given hash and path and a fixed
name and timestamp, so that several records collide on the same target
name. -/
def pRec (hash path : String) : InventoryRecord :=
  { id := none, file_hash := hash, blake3_hash := none, file_size := 10,
    file_name := "a.jpg", relative_path := path,
    captured_at := some "2024-01-02_10-00-00",
    modified_at := "2024-01-02_10-00-00", exif_model := none,
    exif_make := none, exif_artist := none, is_duplicate := false }

def pInv : List InventoryRecord :=
  [pRec "h1" "A/a.jpg", pRec "h2" "B/a.jpg", pRec "h3" "C/a.jpg"]

def pOut : PlanOutput :=
  match generatePlan pCfg 5 pInv with
  | some o => o
  | none => { entries := [], snapshotOps := [] }

/-- Modelled from the spec: an atomic file write places the content at
the destination only through a rename of a temporary file onto the
destination, and never writes the destination path directly; this
predicate checks an operation trace for that shape. -/
def atomicReplacePattern (ops : List FsOp) (dest : String) : Bool :=
  (ops.any (fun op => match op with
    | FsOp.renameFile _ d => d == dest
    | _ => false)) &&
  !(ops.any (fun op => match op with
    | FsOp.writeFile p => p == dest
    | _ => false))

def pOutEmpty : PlanOutput :=
  match generatePlan pCfg 1 [] with
  | some o => o
  | none => { entries := [], snapshotOps := [] }

/-! ## Scanner lemmas and claims -/
/-- An inventory row matches a snapshot when it is keyed by the same
relative path, agrees on size and modified timestamp, and carries a
recorded strong hash — exactly the reuse (cache-hit) condition of
perform_scan. -/
def matchesSnapshot (q : InventoryRecord) (s : Snapshot) : Prop :=
  q.relative_path = s.relative_path ∧ q.file_size = s.file_size ∧
    q.modified_at = s.modified_at ∧ q.blake3_hash.isSome = true

/-- The reused-then-fresh concatenation over which perform_scan marks
duplicates, exposed as the pipeline prefix of performScan. -/
def reuseFreshConcat (env : HashEnv) (files : List Snapshot)
    (prior : List InventoryRecord) : Except String (List InventoryRecord) :=
  let snapshots := enumerateFiles true files
  let m := buildMap prior
  let (reused, toProcess, _, _) := reconcile m snapshots
  match hashAndExtract env toProcess with
  | .error e => .error e
  | .ok hashed => .ok (reused ++ hashed)

/-- A sample hashing environment whose hashes are injective images of
the content and which never fails. -/
def noExif : ExifMetadata :=
  { captured_at := none, camera_model := none, camera_make := none,
    artist := none }

def sEnv : HashEnv :=
  { md5 := fun c => "md5-" ++ c
    blake3 := fun c => "b3-" ++ c
    exif := fun _ => noExif
    hashFailure := fun _ => none }

/-- Three sample files: two with identical content under different
paths, one distinct. -/
def sA : Snapshot :=
  { relative_path := "A/a.jpg", file_name := "a.jpg", file_size := 4,
    modified_at := "t1", content := "same" }

def sB : Snapshot :=
  { relative_path := "B/a.jpg", file_name := "a.jpg", file_size := 4,
    modified_at := "t2", content := "same" }

def sC : Snapshot :=
  { relative_path := "c.jpg", file_name := "c.jpg", file_size := 9,
    modified_at := "t3", content := "diff" }

def sFiles : List Snapshot := [sA, sB, sC]

def sAll : List InventoryRecord :=
  match reuseFreshConcat sEnv sFiles [] with
  | .ok a => a
  | .error _ => []

def sRes : ScanResult :=
  match performScan sEnv true sFiles [] with
  | .ok r => r
  | .error _ => ⟨⟨0, 0, 0, 0⟩, []⟩

/-- A hashing environment whose every hash attempt fails: a rescan that
reuses all rows still succeeds with it, showing no hash is computed. -/
def sEnvFail : HashEnv :=
  { md5 := fun c => "x" ++ c
    blake3 := fun c => "y" ++ c
    exif := fun _ => noExif
    hashFailure := fun _ => some "io error" }

/-! ## Theorems -/

theorem sortInsert_perm (le : α → α → Bool) (a : α) (l : List α) :
    List.Perm (sortInsert le a l) (a :: l) := by
  induction l with
  | nil => simp [sortInsert]
  | cons b t ih =>
    by_cases h : le b a = true
    · simpa [sortInsert, h] using
        (List.Perm.trans (List.Perm.cons b ih) (List.Perm.swap a b t))
    · simp [sortInsert, h]

theorem sortBy_perm (le : α → α → Bool) (l : List α) :
    List.Perm (sortBy le l) l := by
  induction l with
  | nil => simp [sortBy]
  | cons a t ih =>
    exact List.Perm.trans (sortInsert_perm le a (sortBy le t))
      (List.Perm.cons a ih)

theorem find?_filter_of_imp (l : List α) (p f : α → Bool)
    (h : ∀ a, p a = true → f a = true) :
    (l.filter f).find? p = l.find? p := by
  induction l with
  | nil => rfl
  | cons a t ih =>
    cases hfa : f a with
    | true =>
      cases hpa : p a with
      | true => simp [List.filter, hfa, List.find?, hpa]
      | false => simp [List.filter, hfa, List.find?, hpa, ih]
    | false =>
      have hpa : p a = false := by
        cases hpa : p a with
        | true => exact absurd (h a hpa) (by simp [hfa])
        | false => rfl
      simp [List.filter, hfa, List.find?, hpa, ih]

theorem find?_filter_none (l : List α) (p f : α → Bool)
    (h : ∀ a, p a = true → f a = false) :
    (l.filter f).find? p = none := by
  induction l with
  | nil => rfl
  | cons a t ih =>
    cases hfa : f a with
    | true =>
      have hpa : p a = false := by
        cases hpa : p a with
        | true => exact absurd (h a hpa) (by simp [hfa])
        | false => rfl
      simp [List.filter, hfa, List.find?, hpa, ih]
    | false => simp [List.filter, hfa, ih]

theorem fsLookup_insert (fs : FSt) (q p : String) (c : String) :
    fsLookup (fsInsert fs q c) p = if p = q then some c else fsLookup fs p := by
  by_cases h : p = q
  · subst h
    simp [fsLookup, fsInsert, List.find?]
  · have hq : (q == p) = false := by
      simp only [beq_eq_false_iff_ne, ne_eq]
      exact fun hqp => h hqp.symm
    simp only [fsLookup, fsInsert, List.find?, hq, if_neg h]
    rw [find?_filter_of_imp]
    intro a hpa
    simp only [beq_iff_eq] at hpa ⊢
    simp [hpa, h]

theorem fsLookup_remove (fs : FSt) (q p : String) :
    fsLookup (fsRemove fs q) p = if p = q then none else fsLookup fs p := by
  by_cases h : p = q
  · subst h
    simp only [fsLookup, fsRemove, if_pos rfl]
    rw [find?_filter_none]
    · rfl
    · intro a hpa
      simp only [beq_iff_eq] at hpa
      simp [hpa]
  · simp only [fsLookup, fsRemove, if_neg h]
    rw [find?_filter_of_imp]
    intro a hpa
    simp only [beq_iff_eq] at hpa ⊢
    simp [hpa, h]

/-- A successful move leaves the content at the destination and removes
the source, whenever the two paths differ. -/
theorem moveFileSt_ok (env : IoEnv) (fs : FSt) (src dst : String)
    (fs' : FSt) (hne : src ≠ dst)
    (h : moveFileSt env fs src dst = (fs', none)) :
    (fsLookup fs' dst).isSome = true ∧ fsLookup fs' src = none := by
  have hne' : dst ≠ src := fun hd => hne hd.symm
  unfold moveFileSt renameSt at h
  cases henv : env.renameFailure src dst with
  | none =>
    simp only [henv] at h
    cases hl : fsLookup fs src with
    | none => simp [hl, shouldFallbackCopy] at h
    | some c =>
      simp only [hl] at h
      have hfs : fsInsert (fsRemove fs src) dst c = fs' := congrArg Prod.fst h
      subst hfs
      constructor
      · rw [fsLookup_insert]
        simp
      · rw [fsLookup_insert, if_neg hne, fsLookup_remove, if_pos rfl]
  | some e =>
    simp only [henv] at h
    by_cases hfb : shouldFallbackCopy e = true
    · rw [if_pos hfb] at h
      unfold copyThenDelete copyFileSt removeFileSt at h
      cases hcp : env.copyFailure src dst with
      | some ce => simp [hcp] at h
      | none =>
        simp only [hcp] at h
        cases hl : fsLookup fs src with
        | none => simp [hl] at h
        | some c =>
          simp only [hl] at h
          cases hrm : env.removeFailure src with
          | some re => simp [hrm] at h
          | none =>
            simp only [hrm] at h
            have hfs : fsRemove (fsInsert fs dst c) src = fs' :=
              congrArg Prod.fst h
            subst hfs
            constructor
            · rw [fsLookup_remove, if_neg hne', fsLookup_insert, if_pos rfl]
              rfl
            · rw [fsLookup_remove, if_pos rfl]
    · rw [if_neg hfb] at h
      simp at h

theorem copyFileSt_fs_frame (env : IoEnv) (fs : FSt) (src dst p : String)
    (hd : p ≠ dst) :
    fsLookup (copyFileSt env fs src dst).1 p = fsLookup fs p := by
  unfold copyFileSt
  cases env.copyFailure src dst with
  | some e => rfl
  | none =>
    cases fsLookup fs src with
    | none => rfl
    | some c => simp [fsLookup_insert, hd]

theorem moveFileSt_fs_frame (env : IoEnv) (fs : FSt) (src dst p : String)
    (hs : p ≠ src) (hd : p ≠ dst) :
    fsLookup (moveFileSt env fs src dst).1 p = fsLookup fs p := by
  unfold moveFileSt renameSt
  cases env.renameFailure src dst with
  | none =>
    cases fsLookup fs src with
    | none => simp [shouldFallbackCopy]
    | some c => simp [fsLookup_insert, fsLookup_remove, hs, hd]
  | some e =>
    by_cases hfb : shouldFallbackCopy e = true
    · simp only [hfb, if_true]
      unfold copyThenDelete copyFileSt removeFileSt
      cases env.copyFailure src dst with
      | some ce => rfl
      | none =>
        cases fsLookup fs src with
        | none => rfl
        | some c =>
          cases env.removeFailure src with
          | some re => simp [fsLookup_insert, hd]
          | none => simp [fsLookup_remove, fsLookup_insert, hs, hd]
    · simp [hfb]

theorem statusOf_appendLog (db : Db) (row : OperationLog) (id : Nat) :
    statusOf (appendLog db row) id = statusOf db id := rfl

theorem statusOf_setMeta (db : Db) (k v : String) (id : Nat) :
    statusOf (setMeta db k v) id = statusOf db id := rfl

theorem find?_status_map (l : List PlanRecord) (id : Nat) (st : PlanStatus) :
    ((l.map (fun e => if e.id = id then { e with status := st } else e)).find?
        (fun e => e.id == id)) =
      (l.find? (fun e => e.id == id)).map (fun e => { e with status := st }) := by
  induction l with
  | nil => rfl
  | cons a t ih =>
    by_cases ha : a.id = id
    · simp [List.find?, ha]
    · simp only [List.map, List.find?, if_neg ha]
      have : (a.id == id) = false := by simp [ha]
      simp [this, ih]

theorem statusOf_update_self (db : Db) (id : Nat) (st : PlanStatus) :
    statusOf (updatePlanStatus db id st) id =
      (statusOf db id).map (fun _ => st) := by
  unfold statusOf updatePlanStatus
  simp only [find?_status_map]
  cases db.entries.find? (fun e => e.id == id) <;> rfl

theorem find?_status_map_other (l : List PlanRecord) (id' id : Nat)
    (st : PlanStatus) (h : id' ≠ id) :
    ((l.map (fun e => if e.id = id' then { e with status := st } else e)).find?
        (fun e => e.id == id)) = l.find? (fun e => e.id == id) := by
  induction l with
  | nil => rfl
  | cons a t ih =>
    by_cases ha : a.id = id'
    · have h1 : (a.id == id) = false := by simp [ha, h]
      have h2 : (({ a with status := st } : PlanRecord).id == id) = false := by
        simpa [ha] using h1
      simp [List.find?, if_pos ha, h1, h2, ih]
    · simp only [List.map, List.find?, if_neg ha]
      cases hpa : (a.id == id) with
      | true => rfl
      | false => simp [hpa, ih]

theorem statusOf_update_other (db : Db) (id' id : Nat) (st : PlanStatus)
    (h : id' ≠ id) :
    statusOf (updatePlanStatus db id' st) id = statusOf db id := by
  unfold statusOf updatePlanStatus
  simp only [find?_status_map_other _ _ _ _ h]

theorem statusOf_recordFailure_some (db : Db) (e : PlanRecord)
    (st : PlanStatus) (op msg : String) :
    statusOf (recordFailure db e (some st) op msg) e.id =
      (statusOf db e.id).map (fun _ => st) := by
  unfold recordFailure
  rw [statusOf_appendLog, statusOf_update_self]

theorem statusOf_recordFailure_frame (db : Db) (e : PlanRecord)
    (stOpt : Option PlanStatus) (op msg : String) (id : Nat)
    (h : e.id ≠ id) :
    statusOf (recordFailure db e stOpt op msg) id = statusOf db id := by
  unfold recordFailure
  cases stOpt with
  | none => rfl
  | some st => rw [statusOf_appendLog, statusOf_update_other _ _ _ _ h]

theorem logs_updatePlanStatus (db : Db) (id : Nat) (st : PlanStatus) :
    (updatePlanStatus db id st).logs = db.logs := rfl

theorem logs_setMeta (db : Db) (k v : String) :
    (setMeta db k v).logs = db.logs := rfl

theorem logs_recordFailure (db : Db) (e : PlanRecord)
    (stOpt : Option PlanStatus) (op msg : String) :
    (recordFailure db e stOpt op msg).logs =
      db.logs ++ [{ plan_entry_id := e.id, operation := op,
                    status := "failure", error := some msg }] := by
  unfold recordFailure
  cases stOpt <;> rfl

/-! ## Helper lemmas: the execute and undo loops -/
theorem execRun_append (mode : ExecutionMode) (dryRun : Bool) (env : IoEnv)
    (st : ExecState) (l1 l2 : List PlanRecord) :
    execRun mode dryRun env st (l1 ++ l2) =
      execRun mode dryRun env (execRun mode dryRun env st l1) l2 := by
  induction l1 generalizing st with
  | nil => rfl
  | cons a t ih => simp [execRun, ih]

theorem undoRun_append (env : IoEnv) (st : UndoState)
    (l1 l2 : List PlanRecord) :
    undoRun env st (l1 ++ l2) = undoRun env (undoRun env st l1) l2 := by
  induction l1 generalizing st with
  | nil => rfl
  | cons a t ih => simp [undoRun, ih]

/-- Every processed entry is tallied exactly once. -/
theorem execStep_counts (mode : ExecutionMode) (dryRun : Bool)
    (env : IoEnv) (st : ExecState) (e : PlanRecord) :
    (execStep mode dryRun env st e).succeeded +
        (execStep mode dryRun env st e).failed =
      st.succeeded + st.failed + 1 := by
  unfold execStep
  cases dryRun with
  | true =>
    rw [if_pos rfl]
    split
    · simp
      omega
    · simp
      omega
  | false =>
    by_cases ho : (fsLookup st.fs e.origin_full_path).isSome = true
    · by_cases ht : (fsLookup st.fs (targetFull e)).isSome = true
      · simp [ho, ht]
        omega
      · simp only [Bool.not_eq_true] at ht
        cases hop : (match mode with
          | .copyMode => copyFileSt env st.fs e.origin_full_path (targetFull e)
          | .moveMode => moveFileSt env st.fs e.origin_full_path (targetFull e)) with
        | mk fs' r =>
          cases r with
          | none => simp [ho, ht, hop]; omega
          | some err => simp [ho, ht, hop]; omega
    · simp only [Bool.not_eq_true] at ho
      simp [ho]
      omega

theorem execRun_counts (mode : ExecutionMode) (dryRun : Bool) (env : IoEnv)
    (st : ExecState) (l : List PlanRecord) :
    (execRun mode dryRun env st l).succeeded +
        (execRun mode dryRun env st l).failed =
      st.succeeded + st.failed + l.length := by
  induction l generalizing st with
  | nil => simp [execRun]
  | cons a t ih =>
    simp only [execRun, List.length_cons]
    rw [ih, execStep_counts]
    omega

theorem execStep_statusOf_frame (mode : ExecutionMode) (dryRun : Bool)
    (env : IoEnv) (st : ExecState) (e : PlanRecord) (id : Nat)
    (h : e.id ≠ id) :
    statusOf (execStep mode dryRun env st e).db id = statusOf st.db id := by
  unfold execStep
  cases dryRun with
  | true =>
    rw [if_pos rfl]
    split
    · rfl
    · rfl
  | false =>
    by_cases ho : (fsLookup st.fs e.origin_full_path).isSome = true
    · by_cases ht : (fsLookup st.fs (targetFull e)).isSome = true
      · simp [ho, ht, statusOf_recordFailure_frame _ _ _ _ _ _ h]
      · simp only [Bool.not_eq_true] at ht
        cases hop : (match mode with
          | .copyMode => copyFileSt env st.fs e.origin_full_path (targetFull e)
          | .moveMode => moveFileSt env st.fs e.origin_full_path (targetFull e)) with
        | mk fs' r =>
          cases r with
          | none =>
            simp [ho, ht, hop, statusOf_appendLog,
              statusOf_update_other _ _ _ _ h]
          | some err =>
            simp [ho, ht, hop, statusOf_recordFailure_frame _ _ _ _ _ _ h]
    · simp only [Bool.not_eq_true] at ho
      simp [ho, statusOf_recordFailure_frame _ _ _ _ _ _ h]

theorem execRun_statusOf_frame (mode : ExecutionMode) (dryRun : Bool)
    (env : IoEnv) (st : ExecState) (l : List PlanRecord) (id : Nat)
    (h : ∀ e ∈ l, e.id ≠ id) :
    statusOf (execRun mode dryRun env st l).db id = statusOf st.db id := by
  induction l generalizing st with
  | nil => rfl
  | cons a t ih =>
    simp only [execRun]
    rw [ih _ (fun e he => h e (List.mem_cons_of_mem a he)),
      execStep_statusOf_frame _ _ _ _ _ _ (h a (List.mem_cons_self a t))]

theorem execStep_logs_mono (mode : ExecutionMode) (dryRun : Bool)
    (env : IoEnv) (st : ExecState) (e : PlanRecord) :
    ∃ t, (execStep mode dryRun env st e).db.logs = st.db.logs ++ t := by
  unfold execStep
  cases dryRun with
  | true =>
    refine ⟨[], ?_⟩
    rw [if_pos rfl]
    split
    · simp
    · simp
  | false =>
    by_cases ho : (fsLookup st.fs e.origin_full_path).isSome = true
    · by_cases ht : (fsLookup st.fs (targetFull e)).isSome = true
      · simp [ho, ht, logs_recordFailure]
      · simp only [Bool.not_eq_true] at ht
        cases hop : (match mode with
          | .copyMode => copyFileSt env st.fs e.origin_full_path (targetFull e)
          | .moveMode => moveFileSt env st.fs e.origin_full_path (targetFull e)) with
        | mk fs' r =>
          cases r with
          | none =>
            simp only [ho, ht, hop]
            simp [appendLog, logs_updatePlanStatus]
          | some err =>
            simp [ho, ht, hop, logs_recordFailure]
    · simp only [Bool.not_eq_true] at ho
      simp [ho, logs_recordFailure]

theorem execRun_logs_mono (mode : ExecutionMode) (dryRun : Bool)
    (env : IoEnv) (st : ExecState) (l : List PlanRecord) :
    ∃ t, (execRun mode dryRun env st l).db.logs = st.db.logs ++ t := by
  induction l generalizing st with
  | nil => exact ⟨[], by simp [execRun]⟩
  | cons a u ih =>
    obtain ⟨t1, h1⟩ := execStep_logs_mono mode dryRun env st a
    obtain ⟨t2, h2⟩ := ih (execStep mode dryRun env st a)
    exact ⟨t1 ++ t2, by simp [execRun, h2, h1]⟩

theorem undoStep_statusOf_frame (env : IoEnv) (st : UndoState)
    (e : PlanRecord) (id : Nat) (h : e.id ≠ id) :
    statusOf (undoStep env st e).db id = statusOf st.db id := by
  unfold undoStep
  by_cases ht : (fsLookup st.fs (targetFull e)).isNone = true
  · simp [ht, statusOf_recordFailure_frame _ _ _ _ _ _ h]
  · cases hop : moveFileSt env st.fs (targetFull e) e.origin_full_path with
    | mk fs' r =>
      cases r with
      | none =>
        simp [ht, hop, statusOf_appendLog, statusOf_update_other _ _ _ _ h]
      | some err =>
        simp [ht, hop, statusOf_recordFailure_frame _ _ _ _ _ _ h]

theorem undoRun_statusOf_frame (env : IoEnv) (st : UndoState)
    (l : List PlanRecord) (id : Nat) (h : ∀ e ∈ l, e.id ≠ id) :
    statusOf (undoRun env st l).db id = statusOf st.db id := by
  induction l generalizing st with
  | nil => rfl
  | cons a t ih =>
    simp only [undoRun]
    rw [ih _ (fun e he => h e (List.mem_cons_of_mem a he)),
      undoStep_statusOf_frame _ _ _ _ (h a (List.mem_cons_self a t))]

theorem undoStep_fs_frame (env : IoEnv) (st : UndoState) (e : PlanRecord)
    (p : String) (ho : p ≠ e.origin_full_path) (ht : p ≠ targetFull e) :
    fsLookup (undoStep env st e).fs p = fsLookup st.fs p := by
  unfold undoStep
  by_cases hm : (fsLookup st.fs (targetFull e)).isNone = true
  · simp [hm]
  · cases hop : moveFileSt env st.fs (targetFull e) e.origin_full_path with
    | mk fs' r =>
      have hfr : fsLookup fs' p = fsLookup st.fs p := by
        have := moveFileSt_fs_frame env st.fs (targetFull e)
          e.origin_full_path p ht ho
        rw [hop] at this
        exact this
      cases r with
      | none => simpa [hm, hop] using hfr
      | some err => simpa [hm, hop] using hfr

theorem undoRun_fs_frame (env : IoEnv) (st : UndoState)
    (l : List PlanRecord) (p : String)
    (h : ∀ e ∈ l, p ≠ e.origin_full_path ∧ p ≠ targetFull e) :
    fsLookup (undoRun env st l).fs p = fsLookup st.fs p := by
  induction l generalizing st with
  | nil => rfl
  | cons a t ih =>
    simp only [undoRun]
    rw [ih _ (fun e he => h e (List.mem_cons_of_mem a he)),
      undoStep_fs_frame _ _ _ _ (h a (List.mem_cons_self a t)).1
        (h a (List.mem_cons_self a t)).2]

theorem undoStep_logs_mono (env : IoEnv) (st : UndoState)
    (e : PlanRecord) :
    ∃ t, (undoStep env st e).db.logs = st.db.logs ++ t := by
  unfold undoStep
  by_cases hm : (fsLookup st.fs (targetFull e)).isNone = true
  · simp [hm, logs_recordFailure]
  · cases hop : moveFileSt env st.fs (targetFull e) e.origin_full_path with
    | mk fs' r =>
      cases r with
      | none => simp [hm, hop, appendLog, logs_updatePlanStatus]
      | some err => simp [hm, hop, logs_recordFailure]

theorem undoRun_logs_mono (env : IoEnv) (st : UndoState)
    (l : List PlanRecord) :
    ∃ t, (undoRun env st l).db.logs = st.db.logs ++ t := by
  induction l generalizing st with
  | nil => exact ⟨[], by simp [undoRun]⟩
  | cons a u ih =>
    obtain ⟨t1, h1⟩ := undoStep_logs_mono env st a
    obtain ⟨t2, h2⟩ := ih (undoStep env st a)
    exact ⟨t1 ++ t2, by simp [undoRun, h2, h1]⟩

/-- A dry-run step never touches the filesystem or the store, and
tallies an entry as succeeded exactly when the origin exists and the
target does not. -/
theorem execStep_dry (mode : ExecutionMode) (env : IoEnv)
    (st : ExecState) (e : PlanRecord) :
    (execStep mode true env st e).fs = st.fs ∧
      (execStep mode true env st e).db = st.db ∧
      (execStep mode true env st e).succeeded =
        (if ((fsLookup st.fs e.origin_full_path).isSome &&
            !(fsLookup st.fs (targetFull e)).isSome) = true
          then st.succeeded + 1 else st.succeeded) ∧
      (execStep mode true env st e).failed =
        (if ((fsLookup st.fs e.origin_full_path).isSome &&
            !(fsLookup st.fs (targetFull e)).isSome) = true
          then st.failed else st.failed + 1) := by
  unfold execStep
  rw [if_pos rfl]
  cases h1 : (fsLookup st.fs e.origin_full_path).isSome <;>
    cases h2 : (fsLookup st.fs (targetFull e)).isSome <;>
      simp [h1, h2]

theorem execRun_dry (mode : ExecutionMode) (env : IoEnv)
    (st : ExecState) (l : List PlanRecord) :
    (execRun mode true env st l).fs = st.fs ∧
      (execRun mode true env st l).db = st.db ∧
      (execRun mode true env st l).succeeded =
        st.succeeded + (l.filter (fun e =>
          (fsLookup st.fs e.origin_full_path).isSome &&
            !(fsLookup st.fs (targetFull e)).isSome)).length ∧
      (execRun mode true env st l).failed =
        st.failed + (l.filter (fun e =>
          !((fsLookup st.fs e.origin_full_path).isSome &&
            !(fsLookup st.fs (targetFull e)).isSome))).length := by
  induction l generalizing st with
  | nil => simp [execRun]
  | cons a t ih =>
    obtain ⟨hfs, hdb, hsucc, hfail⟩ := execStep_dry mode env st a
    have ihs := ih (execStep mode true env st a)
    obtain ⟨ifs, idb, isucc, ifail⟩ := ihs
    rw [hfs] at ifs isucc ifail
    rw [hdb] at idb
    refine ⟨?_, ?_, ?_, ?_⟩
    · simpa [execRun] using ifs
    · simpa [execRun] using idb
    · simp only [execRun]
      rw [isucc, hsucc, List.filter_cons]
      by_cases hg : ((fsLookup st.fs a.origin_full_path).isSome &&
          !(fsLookup st.fs (targetFull a)).isSome) = true
      · simp only [hg, if_true, List.length_cons]
        omega
      · rw [if_neg hg, if_neg hg]
    · simp only [execRun]
      rw [ifail, hfail, List.filter_cons]
      by_cases hg : ((fsLookup st.fs a.origin_full_path).isSome &&
          !(fsLookup st.fs (targetFull a)).isSome) = true
      · rw [if_pos hg, if_neg ?_]
        · intro hx
          rw [hg] at hx
          simp at hx
      · rw [if_neg hg, if_pos ?_]
        · rw [List.length_cons]
          omega
        · simp only [Bool.not_eq_true] at hg
          rw [hg]
          rfl

/-! ## Claim theorems -/
/-- Claim C10: for every call to run_execution (dry-run or not), the
returned summary satisfies succeeded + failed = processed_entries =
total_entries, where total_entries is the number of entries in Pending
status when the call starts; every Pending entry is tallied exactly
once as a success or a failure. -/
theorem run_execution_tallies (mode : ExecutionMode) (dryRun : Bool)
    (env : IoEnv) (fs0 : FSt) (db0 : Db) :
    (runExecution mode dryRun env fs0 db0).1.succeeded +
        (runExecution mode dryRun env fs0 db0).1.failed =
      (runExecution mode dryRun env fs0 db0).1.processed_entries ∧
    (runExecution mode dryRun env fs0 db0).1.processed_entries =
      (runExecution mode dryRun env fs0 db0).1.total_entries ∧
    (runExecution mode dryRun env fs0 db0).1.total_entries =
      (planEntriesWithStatus db0 [PlanStatus.Pending]).length := by
  unfold runExecution
  by_cases h : (planEntriesWithStatus db0 [PlanStatus.Pending]).length = 0
  · simp [h]
  · rw [if_neg h]
    refine ⟨?_, rfl, rfl⟩
    rw [execRun_counts]
    simp

/-- Claim C7 (amended): a dry run performs no filesystem mutation,
updates no plan entry status, appends no operation-log row, and only
tallies succeeded/failed from the pre-flight existence checks against
the initial filesystem; however, when at least one Pending entry
exists, the post-pass still rewrites the plan_schema_version key of
app_meta, so that one metadata key, unlike all other persisted state,
can change on a dry run. -/
theorem run_execution_dry_run_frame (mode : ExecutionMode) (env : IoEnv)
    (fs0 : FSt) (db0 : Db) :
    (runExecution mode true env fs0 db0).2.1 = fs0 ∧
    (runExecution mode true env fs0 db0).2.2.entries = db0.entries ∧
    (runExecution mode true env fs0 db0).2.2.logs = db0.logs ∧
    (runExecution mode true env fs0 db0).2.2.meta =
      (if (planEntriesWithStatus db0 [PlanStatus.Pending]).length = 0
        then db0.meta
        else ("plan_schema_version", "1") ::
          db0.meta.filter (fun p => !(p.1 == "plan_schema_version"))) ∧
    (runExecution mode true env fs0 db0).1.succeeded =
      ((planEntriesWithStatus db0 [PlanStatus.Pending]).filter (fun e =>
        (fsLookup fs0 e.origin_full_path).isSome &&
          !(fsLookup fs0 (targetFull e)).isSome)).length := by
  unfold runExecution
  by_cases h : (planEntriesWithStatus db0 [PlanStatus.Pending]).length = 0
  · rw [if_pos h]
    have hempty : planEntriesWithStatus db0 [PlanStatus.Pending] = [] :=
      List.length_eq_zero.mp h
    refine ⟨rfl, rfl, rfl, by rw [if_pos h], ?_⟩
    rw [hempty]
    rfl
  · rw [if_neg h]
    obtain ⟨hfs, hdb, hsucc, -⟩ := execRun_dry mode env
      { fs := fs0, db := db0, succeeded := 0, failed := 0 }
      (planEntriesWithStatus db0 [PlanStatus.Pending])
    refine ⟨hfs, ?_, ?_, ?_, ?_⟩
    · show (setMeta _ _ _).entries = db0.entries
      rw [show (setMeta (execRun mode true env _ _).db "plan_schema_version"
          "1").entries = (execRun mode true env _ _).db.entries from rfl, hdb]
    · show (setMeta _ _ _).logs = db0.logs
      rw [logs_setMeta, hdb]
    · rw [if_neg h]
      show (setMeta _ _ _).meta = _
      unfold setMeta
      rw [hdb]
    · simpa using hsucc

/-- Claim C7, as stated, is false: a dry run does not leave all
persisted state unchanged, because run_execution writes the
plan_schema_version metadata key even when dry_run is true. -/
theorem run_execution_dry_run_frame_counterexample :
    (runExecution .copyMode true envNone cxFsOrigin cxDb).1.dry_run = true ∧
    (runExecution .copyMode true envNone cxFsOrigin cxDb).2.2 ≠ cxDb := by
  constructor
  · rfl
  · intro h
    have : (runExecution .copyMode true envNone cxFsOrigin cxDb).2.2.meta =
        cxDb.meta := by rw [h]
    simp [runExecution, cxDb, planEntriesWithStatus, cxEntry, execRun,
      execStep, setMeta] at this

theorem renameSt_err_fst (env : IoEnv) (fs : FSt) (src dst : String)
    (e : IoError) (h : (renameSt env fs src dst).2 = some e) :
    (renameSt env fs src dst).1 = fs := by
  unfold renameSt at h ⊢
  cases henv : env.renameFailure src dst with
  | some e' => simp [henv]
  | none =>
    cases hl : fsLookup fs src with
    | none => simp [henv, hl]
    | some c => simp [henv, hl] at h

/-- Claim C6: a move first attempts an atomic rename; when the rename
succeeds the move is exactly that rename; when it fails with a
cross-device error the move becomes copy-then-delete-source; every
other rename error is propagated unchanged with no retry and no
filesystem effect; and the fallback predicate accepts exactly the
cross-device error kind. -/
theorem move_file_fallback_policy (env : IoEnv) (fs : FSt)
    (src dst : String) :
    ((renameSt env fs src dst).2 = none →
      moveFileSt env fs src dst = renameSt env fs src dst) ∧
    (∀ e, (renameSt env fs src dst).2 = some e →
      shouldFallbackCopy e = false →
      moveFileSt env fs src dst = (fs, some e)) ∧
    (∀ e, (renameSt env fs src dst).2 = some e →
      shouldFallbackCopy e = true →
      moveFileSt env fs src dst = copyThenDelete env fs src dst) ∧
    (∀ e, shouldFallbackCopy e = true ↔ e.kind = ErrKind.crossDeviceLink) := by
  refine ⟨?_, ?_, ?_, ?_⟩
  · intro h
    unfold moveFileSt
    cases hr : renameSt env fs src dst with
    | mk fs1 r =>
      cases r with
      | none => rfl
      | some e =>
        rw [hr] at h
        simp at h
  · intro e h hf
    have hfst := renameSt_err_fst env fs src dst e h
    unfold moveFileSt
    cases hr : renameSt env fs src dst with
    | mk fs1 r =>
      rw [hr] at h hfst
      simp only at h hfst
      subst h
      subst hfst
      simp [hf]
  · intro e h hf
    unfold moveFileSt
    cases hr : renameSt env fs src dst with
    | mk fs1 r =>
      rw [hr] at h
      simp only at h
      subst h
      simp [hf]
  · intro e
    unfold shouldFallbackCopy
    exact beq_iff_eq

/-- Witness for C6: with an environment whose rename always fails
cross-device, the move on a concrete filesystem is the
copy-then-delete fallback. -/
theorem move_file_fallback_policy_witness :
    moveFileSt envCross [("/a", "x")] "/a" "/b" =
      copyThenDelete envCross [("/a", "x")] "/a" "/b" :=
  (move_file_fallback_policy envCross [("/a", "x")] "/a" "/b").2.2.1
    { kind := .crossDeviceLink, msg := "cross-device link" } rfl rfl

theorem execStateAt_succ (mode : ExecutionMode) (dryRun : Bool)
    (env : IoEnv) (fs0 : FSt) (db0 : Db) (i : Nat)
    (hi : i < (planEntriesWithStatus db0 [PlanStatus.Pending]).length) :
    execStateAt mode dryRun env fs0 db0 (i + 1) =
      execStep mode dryRun env (execStateAt mode dryRun env fs0 db0 i)
        ((planEntriesWithStatus db0 [PlanStatus.Pending]).get ⟨i, hi⟩) := by
  unfold execStateAt
  rw [List.take_succ, List.getElem?_eq_getElem hi, execRun_append]
  simp [execRun, List.get_eq_getElem]

theorem entries_map_id_updatePlanStatus (db : Db) (id : Nat)
    (st : PlanStatus) :
    (updatePlanStatus db id st).entries.map (fun q => q.id) =
      db.entries.map (fun q => q.id) := by
  unfold updatePlanStatus
  simp only [List.map_map]
  apply List.map_congr_left
  intro e _
  by_cases h : e.id = id <;> simp [h]

theorem entries_map_id_recordFailure (db : Db) (e : PlanRecord)
    (stOpt : Option PlanStatus) (op msg : String) :
    (recordFailure db e stOpt op msg).entries.map (fun q => q.id) =
      db.entries.map (fun q => q.id) := by
  unfold recordFailure
  cases stOpt with
  | none => rfl
  | some st => exact entries_map_id_updatePlanStatus db e.id st

theorem entries_map_id_execStep (mode : ExecutionMode) (dryRun : Bool)
    (env : IoEnv) (st : ExecState) (e : PlanRecord) :
    (execStep mode dryRun env st e).db.entries.map (fun q => q.id) =
      st.db.entries.map (fun q => q.id) := by
  unfold execStep
  cases dryRun with
  | true =>
    rw [if_pos rfl]
    split
    · rfl
    · rfl
  | false =>
    by_cases ho : (fsLookup st.fs e.origin_full_path).isSome = true
    · by_cases ht : (fsLookup st.fs (targetFull e)).isSome = true
      · simp [ho, ht, entries_map_id_recordFailure]
      · simp only [Bool.not_eq_true] at ht
        cases hop : (match mode with
          | .copyMode => copyFileSt env st.fs e.origin_full_path (targetFull e)
          | .moveMode => moveFileSt env st.fs e.origin_full_path (targetFull e)) with
        | mk fs' r =>
          cases r with
          | none =>
            simp only [ho, ht, hop]
            simp [appendLog, entries_map_id_updatePlanStatus]
          | some err =>
            simp [ho, ht, hop, entries_map_id_recordFailure]
    · simp only [Bool.not_eq_true] at ho
      simp [ho, entries_map_id_recordFailure]

theorem entries_map_id_execRun (mode : ExecutionMode) (dryRun : Bool)
    (env : IoEnv) (st : ExecState) (l : List PlanRecord) :
    (execRun mode dryRun env st l).db.entries.map (fun q => q.id) =
      st.db.entries.map (fun q => q.id) := by
  induction l generalizing st with
  | nil => rfl
  | cons a t ih =>
    simp only [execRun]
    rw [ih, entries_map_id_execStep]

theorem any_map_general (l : List α) (f : α → β) (p : β → Bool) :
    (l.map f).any p = l.any (fun a => p (f a)) := by
  induction l with
  | nil => rfl
  | cons a t ih => simp [ih]

theorem any_id_of_map_id_eq (l1 l2 : List PlanRecord) (id : Nat)
    (h : l1.map (fun q => q.id) = l2.map (fun q => q.id)) :
    l1.any (fun q => q.id == id) = l2.any (fun q => q.id == id) := by
  have h1 := any_map_general l1 (fun q => q.id) (fun x => x == id)
  have h2 := any_map_general l2 (fun q => q.id) (fun x => x == id)
  rw [← h1, ← h2, h]

theorem statusOf_update_found (db : Db) (id : Nat) (st : PlanStatus)
    (h : db.entries.any (fun q => q.id == id) = true) :
    statusOf (updatePlanStatus db id st) id = some st := by
  unfold statusOf updatePlanStatus
  rw [find?_status_map]
  cases hf : db.entries.find? (fun e => e.id == id) with
  | some y => rfl
  | none =>
    exfalso
    rw [List.find?_eq_none] at hf
    rw [List.any_eq_true] at h
    obtain ⟨x, hx, hpx⟩ := h
    exact hf x hx hpx

theorem nodup_ids_drop (l : List PlanRecord)
    (h : (l.map (fun e => e.id)).Nodup) (i : Nat) (hi : i < l.length) :
    ∀ q ∈ l.drop (i + 1), q.id ≠ (l.get ⟨i, hi⟩).id := by
  intro q hq
  have hi2 : i < (l.map (fun e => e.id)).length := by simpa using hi
  have h1 : (l.take (i + 1)).map (fun e => e.id) =
      (l.take i).map (fun e => e.id) ++ [(l.get ⟨i, hi⟩).id] := by
    rw [List.map_take, List.map_take, List.take_succ,
      List.getElem?_eq_getElem hi2]
    simp [List.get_eq_getElem]
  have hsplit : l.map (fun e => e.id) =
      (l.take i).map (fun e => e.id) ++
        (l.get ⟨i, hi⟩).id :: (l.drop (i + 1)).map (fun e => e.id) := by
    calc l.map (fun e => e.id)
        = ((l.take (i + 1)) ++ l.drop (i + 1)).map (fun e => e.id) := by
          rw [List.take_append_drop]
      _ = (l.take (i + 1)).map (fun e => e.id) ++
            (l.drop (i + 1)).map (fun e => e.id) := by
          rw [List.map_append]
      _ = ((l.take i).map (fun e => e.id) ++ [(l.get ⟨i, hi⟩).id]) ++
            (l.drop (i + 1)).map (fun e => e.id) := by rw [h1]
      _ = (l.take i).map (fun e => e.id) ++
            (l.get ⟨i, hi⟩).id :: (l.drop (i + 1)).map (fun e => e.id) := by
          simp
  rw [hsplit] at h
  have h2 := h.of_append_right
  rw [List.nodup_cons] at h2
  intro hcontra
  exact h2.1 (hcontra ▸ List.mem_map_of_mem (fun e => e.id) hq)

theorem pending_ids_nodup (db : Db) (sts : List PlanStatus)
    (h : (db.entries.map (fun e => e.id)).Nodup) :
    ((planEntriesWithStatus db sts).map (fun e => e.id)).Nodup := by
  unfold planEntriesWithStatus
  by_cases he : sts.isEmpty = true
  · simpa [he] using h
  · rw [if_neg he]
    exact h.sublist (List.Sublist.map _ (List.filter_sublist _))

theorem mem_entries_of_mem_pending (db : Db) (sts : List PlanStatus)
    (e : PlanRecord) (h : e ∈ planEntriesWithStatus db sts) :
    e ∈ db.entries := by
  unfold planEntriesWithStatus at h
  by_cases he : sts.isEmpty = true
  · simpa [he] using h
  · rw [if_neg he] at h
    exact List.mem_of_mem_filter h

/-- Claim C5 (amended): for every Pending plan entry whose origin file
exists and whose target file already exists in the loop state where the
entry is processed, a non-dry-run execute counts that entry as failed
(and not as succeeded), sets its stored status to Failed, appends a
failure log row with the error "target file already exists", and leaves
the filesystem (in particular the origin file) untouched by that
entry's processing.  The missing-origin check runs first, so the origin
must exist for this error message (the unamended claim omits that
precondition).  Distinct row ids are assumed, as the store's
autoincrement primary key guarantees. -/
theorem execute_target_exists_fails (mode : ExecutionMode) (env : IoEnv)
    (fs0 : FSt) (db0 : Db) (i : Nat)
    (hi : i < (planEntriesWithStatus db0 [PlanStatus.Pending]).length)
    (hids : (db0.entries.map (fun q => q.id)).Nodup)
    (horig : (fsLookup (execStateAt mode false env fs0 db0 i).fs
      ((planEntriesWithStatus db0 [PlanStatus.Pending]).get
        ⟨i, hi⟩).origin_full_path).isSome = true)
    (htgt : (fsLookup (execStateAt mode false env fs0 db0 i).fs
      (targetFull ((planEntriesWithStatus db0 [PlanStatus.Pending]).get
        ⟨i, hi⟩))).isSome = true) :
    execStateAt mode false env fs0 db0 (i + 1) =
      { fs := (execStateAt mode false env fs0 db0 i).fs
        db := recordFailure (execStateAt mode false env fs0 db0 i).db
          ((planEntriesWithStatus db0 [PlanStatus.Pending]).get ⟨i, hi⟩)
          (some .Failed) mode.asStr "target file already exists"
        succeeded := (execStateAt mode false env fs0 db0 i).succeeded
        failed := (execStateAt mode false env fs0 db0 i).failed + 1 } ∧
    statusOf (runExecution mode false env fs0 db0).2.2
      ((planEntriesWithStatus db0 [PlanStatus.Pending]).get ⟨i, hi⟩).id =
      some PlanStatus.Failed ∧
    ({ plan_entry_id :=
          ((planEntriesWithStatus db0 [PlanStatus.Pending]).get ⟨i, hi⟩).id
       operation := mode.asStr
       status := "failure"
       error := some "target file already exists" } : OperationLog) ∈
      (runExecution mode false env fs0 db0).2.2.logs := by
  set P := planEntriesWithStatus db0 [PlanStatus.Pending] with hP
  set e := P.get ⟨i, hi⟩ with he
  set si := execStateAt mode false env fs0 db0 i with hsi
  have hstep : execStep mode false env si e =
      { fs := si.fs
        db := recordFailure si.db e (some .Failed) mode.asStr
          "target file already exists"
        succeeded := si.succeeded
        failed := si.failed + 1 } := by
    unfold execStep
    rw [if_neg (by simp)]
    rw [if_neg (by rw [horig]; simp)]
    rw [if_pos htgt]
  have hsucc1 : execStateAt mode false env fs0 db0 (i + 1) =
      execStep mode false env si e := execStateAt_succ mode false env fs0 db0 i hi
  have hcons1 : execStateAt mode false env fs0 db0 (i + 1) =
      { fs := si.fs
        db := recordFailure si.db e (some .Failed) mode.asStr
          "target file already exists"
        succeeded := si.succeeded
        failed := si.failed + 1 } := by rw [hsucc1, hstep]
  -- membership of the id among the stored rows, transported to si
  have hmem : e ∈ db0.entries :=
    mem_entries_of_mem_pending db0 [PlanStatus.Pending] e (P.get_mem i hi)
  have hany0 : db0.entries.any (fun q => q.id == e.id) = true := by
    rw [List.any_eq_true]
    exact ⟨e, hmem, by simp⟩
  have hany_si : si.db.entries.any (fun q => q.id == e.id) = true := by
    rw [any_id_of_map_id_eq si.db.entries db0.entries e.id]
    · exact hany0
    · exact entries_map_id_execRun mode false env _ _
  -- status after this entry's step
  have hstatus1 : statusOf (execStateAt mode false env fs0 db0 (i + 1)).db
      e.id = some PlanStatus.Failed := by
    rw [hcons1]
    show statusOf (recordFailure si.db e (some .Failed) mode.asStr
      "target file already exists") e.id = some PlanStatus.Failed
    unfold recordFailure
    rw [statusOf_appendLog]
    exact statusOf_update_found si.db e.id .Failed hany_si
  -- the full run decomposed around position i
  have htotal : P.length ≠ 0 := by
    intro h0
    rw [h0] at hi
    exact Nat.not_lt_zero i hi
  have hfinal : (runExecution mode false env fs0 db0).2.2 =
      setMeta (execRun mode false env
        { fs := fs0, db := db0, succeeded := 0, failed := 0 } P).db
        "plan_schema_version" "1" := by
    unfold runExecution
    rw [← hP, if_neg htotal]
  have hdecomp : execRun mode false env
      { fs := fs0, db := db0, succeeded := 0, failed := 0 } P =
      execRun mode false env (execStateAt mode false env fs0 db0 (i + 1))
        (P.drop (i + 1)) := by
    conv_lhs => rw [← List.take_append_drop (i + 1) P]
    rw [execRun_append]
    rfl
  have hdropne : ∀ q ∈ P.drop (i + 1), q.id ≠ e.id :=
    nodup_ids_drop P (pending_ids_nodup db0 [PlanStatus.Pending] hids) i hi
  have hstatus_final : statusOf (runExecution mode false env fs0 db0).2.2
      e.id = some PlanStatus.Failed := by
    rw [hfinal, statusOf_setMeta, hdecomp,
      execRun_statusOf_frame _ _ _ _ _ _ hdropne, hstatus1]
  -- the appended log row survives to the end of the run
  have hrow1 : ({
       plan_entry_id := e.id
       operation := mode.asStr
       status := "failure"
       error := some "target file already exists" } : OperationLog) ∈
      (execStateAt mode false env fs0 db0 (i + 1)).db.logs := by
    rw [hcons1]
    show _ ∈ (recordFailure si.db e (some .Failed) mode.asStr
      "target file already exists").logs
    rw [logs_recordFailure]
    exact List.mem_append_right _ (List.mem_singleton.mpr rfl)
  have hrow_final : ({
       plan_entry_id := e.id
       operation := mode.asStr
       status := "failure"
       error := some "target file already exists" } : OperationLog) ∈
      (runExecution mode false env fs0 db0).2.2.logs := by
    rw [hfinal, logs_setMeta, hdecomp]
    obtain ⟨t, ht⟩ := execRun_logs_mono mode false env
      (execStateAt mode false env fs0 db0 (i + 1)) (P.drop (i + 1))
    rw [ht]
    exact List.mem_append_left _ hrow1
  exact ⟨hcons1, hstatus_final, hrow_final⟩

/-- Claim C5, as stated, is false: when the origin file is missing and
the target file already exists, the entry is failed with the error
"origin file missing", not "target file already exists" — the
missing-origin pre-flight check takes precedence. -/
theorem execute_target_exists_counterexample :
    (fsLookup cxFsTargetOnly (targetFull cxEntry)).isSome = true ∧
    cxEntry.status = PlanStatus.Pending ∧
    (runExecution .moveMode false envNone cxFsTargetOnly cxDb).2.2.logs =
      [{ plan_entry_id := 1, operation := "move", status := "failure",
         error := some "origin file missing" }] ∧
    ¬(({ plan_entry_id := 1, operation := "move", status := "failure",
         error := some "target file already exists" } : OperationLog) ∈
      (runExecution .moveMode false envNone cxFsTargetOnly cxDb).2.2.logs) := by
  decide

/-- Witness for C5 (amended) at a concrete state: one Pending entry
whose origin and target both exist. -/
theorem execute_target_exists_fails_witness :
    statusOf (runExecution .moveMode false envNone wFs5 cxDb).2.2 1 =
      some PlanStatus.Failed ∧
    ({ plan_entry_id := 1, operation := "move", status := "failure",
       error := some "target file already exists" } : OperationLog) ∈
      (runExecution .moveMode false envNone wFs5 cxDb).2.2.logs := by
  have h := execute_target_exists_fails .moveMode envNone wFs5 cxDb 0
    (by decide) (by decide) (by decide) (by decide)
  exact ⟨h.2.1, h.2.2⟩

theorem undoStateAt_succ (env : IoEnv) (fs0 : FSt) (db0 : Db) (i : Nat)
    (hi : i < (planEntriesWithStatus db0 [PlanStatus.Moved]).length) :
    undoStateAt env fs0 db0 (i + 1) =
      undoStep env (undoStateAt env fs0 db0 i)
        ((planEntriesWithStatus db0 [PlanStatus.Moved]).get ⟨i, hi⟩) := by
  unfold undoStateAt
  rw [List.take_succ, List.getElem?_eq_getElem hi, undoRun_append]
  simp [undoRun, List.get_eq_getElem]

theorem entries_map_id_undoStep (env : IoEnv) (st : UndoState)
    (e : PlanRecord) :
    (undoStep env st e).db.entries.map (fun q => q.id) =
      st.db.entries.map (fun q => q.id) := by
  unfold undoStep
  by_cases hm : (fsLookup st.fs (targetFull e)).isNone = true
  · simp [hm, entries_map_id_recordFailure]
  · cases hop : moveFileSt env st.fs (targetFull e) e.origin_full_path with
    | mk fs' r =>
      cases r with
      | none =>
        simp only [hm, hop]
        simp [appendLog, entries_map_id_updatePlanStatus]
      | some err => simp [hm, hop, entries_map_id_recordFailure]

theorem entries_map_id_undoRun (env : IoEnv) (st : UndoState)
    (l : List PlanRecord) :
    (undoRun env st l).db.entries.map (fun q => q.id) =
      st.db.entries.map (fun q => q.id) := by
  induction l generalizing st with
  | nil => rfl
  | cons a t ih =>
    simp only [undoRun]
    rw [ih, entries_map_id_undoStep]

/-- Claim C4: for every plan entry in Moved status whose target file
exists when it is processed by undo_moves and whose move back to the
origin succeeds, after the run the file exists at the origin path, no
longer exists at the target path, and the entry's stored status is
Pending.  The hypotheses also record the path-aliasing facts every
generated plan provides: target and origin of the entry differ, distinct
rows have distinct ids (autoincrement key), and later Moved entries do
not reuse this entry's origin or target paths. -/
theorem undo_moved_roundtrip (env : IoEnv) (fs0 : FSt) (db0 : Db)
    (i : Nat)
    (hi : i < (planEntriesWithStatus db0 [PlanStatus.Moved]).length)
    (hids : (db0.entries.map (fun q => q.id)).Nodup)
    (htgt : (fsLookup (undoStateAt env fs0 db0 i).fs
      (targetFull ((planEntriesWithStatus db0 [PlanStatus.Moved]).get
        ⟨i, hi⟩))).isSome = true)
    (hok : (moveFileSt env (undoStateAt env fs0 db0 i).fs
      (targetFull ((planEntriesWithStatus db0 [PlanStatus.Moved]).get
        ⟨i, hi⟩))
      ((planEntriesWithStatus db0 [PlanStatus.Moved]).get
        ⟨i, hi⟩).origin_full_path).2 = none)
    (hne : targetFull ((planEntriesWithStatus db0 [PlanStatus.Moved]).get
        ⟨i, hi⟩) ≠
      ((planEntriesWithStatus db0 [PlanStatus.Moved]).get
        ⟨i, hi⟩).origin_full_path)
    (hframe : ∀ q ∈ (planEntriesWithStatus db0 [PlanStatus.Moved]).drop
        (i + 1),
      q.origin_full_path ≠
        ((planEntriesWithStatus db0 [PlanStatus.Moved]).get
          ⟨i, hi⟩).origin_full_path ∧
      q.origin_full_path ≠
        targetFull ((planEntriesWithStatus db0 [PlanStatus.Moved]).get
          ⟨i, hi⟩) ∧
      targetFull q ≠
        ((planEntriesWithStatus db0 [PlanStatus.Moved]).get
          ⟨i, hi⟩).origin_full_path ∧
      targetFull q ≠
        targetFull ((planEntriesWithStatus db0 [PlanStatus.Moved]).get
          ⟨i, hi⟩)) :
    (fsLookup (undoMoves env fs0 db0).2.1
      ((planEntriesWithStatus db0 [PlanStatus.Moved]).get
        ⟨i, hi⟩).origin_full_path).isSome = true ∧
    fsLookup (undoMoves env fs0 db0).2.1
      (targetFull ((planEntriesWithStatus db0 [PlanStatus.Moved]).get
        ⟨i, hi⟩)) = none ∧
    statusOf (undoMoves env fs0 db0).2.2
      ((planEntriesWithStatus db0 [PlanStatus.Moved]).get ⟨i, hi⟩).id =
      some PlanStatus.Pending := by
  set M := planEntriesWithStatus db0 [PlanStatus.Moved] with hM
  set e := M.get ⟨i, hi⟩ with he
  set si := undoStateAt env fs0 db0 i with hsi
  cases hop : moveFileSt env si.fs (targetFull e) e.origin_full_path with
  | mk fs' r =>
    have hr : r = none := by
      have := hok
      rw [hop] at this
      exact this
    subst hr
    -- the step at position i
    have hnn : (fsLookup si.fs (targetFull e)).isNone = false := by
      cases hcase : fsLookup si.fs (targetFull e) with
      | none =>
        rw [hcase] at htgt
        simp at htgt
      | some c => rfl
    have hstep : undoStep env si e =
        { fs := fs'
          db := appendLog (updatePlanStatus si.db e.id .Pending)
            { plan_entry_id := e.id, operation := "undo",
              status := "success", error := none }
          restored := si.restored + 1
          missing := si.missing
          failed := si.failed } := by
      unfold undoStep
      rw [if_neg (by simp [hnn]), hop]
    have hsucc1 : undoStateAt env fs0 db0 (i + 1) = undoStep env si e :=
      undoStateAt_succ env fs0 db0 i hi
    have hcons1 : undoStateAt env fs0 db0 (i + 1) =
        { fs := fs'
          db := appendLog (updatePlanStatus si.db e.id .Pending)
            { plan_entry_id := e.id, operation := "undo",
              status := "success", error := none }
          restored := si.restored + 1
          missing := si.missing
          failed := si.failed } := by rw [hsucc1, hstep]
    have hmv := moveFileSt_ok env si.fs (targetFull e) e.origin_full_path
      fs' hne hop
    have htotal : M.length ≠ 0 := by
      intro h0
      rw [h0] at hi
      exact Nat.not_lt_zero i hi
    have hfinal_fs : (undoMoves env fs0 db0).2.1 =
        (undoRun env
          { fs := fs0, db := db0, restored := 0, missing := 0, failed := 0 }
          M).fs := by
      unfold undoMoves
      rw [← hM, if_neg htotal]
    have hfinal_db : (undoMoves env fs0 db0).2.2 =
        (undoRun env
          { fs := fs0, db := db0, restored := 0, missing := 0, failed := 0 }
          M).db := by
      unfold undoMoves
      rw [← hM, if_neg htotal]
    have hdecomp : undoRun env
        { fs := fs0, db := db0, restored := 0, missing := 0, failed := 0 }
        M =
        undoRun env (undoStateAt env fs0 db0 (i + 1)) (M.drop (i + 1)) := by
      conv_lhs => rw [← List.take_append_drop (i + 1) M]
      rw [undoRun_append]
      rfl
    have hfr_origin : ∀ q ∈ M.drop (i + 1),
        e.origin_full_path ≠ q.origin_full_path ∧
          e.origin_full_path ≠ targetFull q := by
      intro q hq
      exact ⟨fun hco => (hframe q hq).1 hco.symm,
        fun hco => (hframe q hq).2.2.1 hco.symm⟩
    have hfr_target : ∀ q ∈ M.drop (i + 1),
        targetFull e ≠ q.origin_full_path ∧
          targetFull e ≠ targetFull q := by
      intro q hq
      exact ⟨fun hco => (hframe q hq).2.1 hco.symm,
        fun hco => (hframe q hq).2.2.2 hco.symm⟩
    have hlook_origin :
        (fsLookup (undoMoves env fs0 db0).2.1 e.origin_full_path).isSome =
          true := by
      rw [hfinal_fs, hdecomp, undoRun_fs_frame env _ _ _ hfr_origin,
        hcons1]
      exact hmv.1
    have hlook_target :
        fsLookup (undoMoves env fs0 db0).2.1 (targetFull e) = none := by
      rw [hfinal_fs, hdecomp, undoRun_fs_frame env _ _ _ hfr_target,
        hcons1]
      exact hmv.2
    have hmem : e ∈ db0.entries :=
      mem_entries_of_mem_pending db0 [PlanStatus.Moved] e (M.get_mem i hi)
    have hany0 : db0.entries.any (fun q => q.id == e.id) = true := by
      rw [List.any_eq_true]
      exact ⟨e, hmem, by simp⟩
    have hany_si : si.db.entries.any (fun q => q.id == e.id) = true := by
      rw [any_id_of_map_id_eq si.db.entries db0.entries e.id]
      · exact hany0
      · exact entries_map_id_undoRun env _ _
    have hstatus1 : statusOf (undoStateAt env fs0 db0 (i + 1)).db e.id =
        some PlanStatus.Pending := by
      rw [hcons1]
      show statusOf (appendLog (updatePlanStatus si.db e.id .Pending) _)
        e.id = some PlanStatus.Pending
      rw [statusOf_appendLog]
      exact statusOf_update_found si.db e.id .Pending hany_si
    have hdropne : ∀ q ∈ M.drop (i + 1), q.id ≠ e.id :=
      nodup_ids_drop M (pending_ids_nodup db0 [PlanStatus.Moved] hids) i hi
    have hstatus_final : statusOf (undoMoves env fs0 db0).2.2 e.id =
        some PlanStatus.Pending := by
      rw [hfinal_db, hdecomp, undoRun_statusOf_frame _ _ _ _ hdropne,
        hstatus1]
    exact ⟨hlook_origin, hlook_target, hstatus_final⟩

/-- Witness for C4 at a concrete state: one Moved entry whose target
exists is restored to its origin with Pending status. -/
theorem undo_moved_roundtrip_witness :
    (fsLookup (undoMoves envNone cxFsMoved cxDbMoved).2.1
      "/r/a.jpg").isSome = true ∧
    fsLookup (undoMoves envNone cxFsMoved cxDbMoved).2.1
      "/o/2024/t.a.jpg" = none ∧
    statusOf (undoMoves envNone cxFsMoved cxDbMoved).2.2 1 =
      some PlanStatus.Pending := by
  have h := undo_moved_roundtrip envNone cxFsMoved cxDbMoved 0 (by decide)
    (by decide) (by decide) (by decide) (by decide) (by decide)
  exact ⟨h.1, h.2.1, h.2.2⟩

/-! ## Planner lemmas and claims -/
theorem reserveTargetGo_spec (path base : String) (fuel : Nat) :
    ∀ attempt used name used',
    reserveTargetGo used path base attempt fuel = some (name, used') →
    used' = (path ++ name) :: used ∧ (path ++ name) ∉ used ∧
    ∃ n, attempt ≤ n ∧ name = dupCandidate base n ∧
      ∀ k, attempt ≤ k → k < n → (path ++ dupCandidate base k) ∈ used := by
  induction fuel with
  | zero =>
    intro attempt used name used' h
    exact absurd h (by simp [reserveTargetGo])
  | succ f ih =>
    intro attempt used name used' h
    unfold reserveTargetGo at h
    by_cases hk : (path ++ dupCandidate base attempt) ∈ used
    · rw [if_pos hk] at h
      obtain ⟨h1, h2, n, hn1, hn2, hn3⟩ := ih (attempt + 1) used name used' h
      refine ⟨h1, h2, n, Nat.le_of_succ_le hn1, hn2, ?_⟩
      intro k hk1 hk2
      by_cases hke : k = attempt
      · exact hke ▸ hk
      · exact hn3 k (Nat.succ_le_of_lt
          (Nat.lt_of_le_of_ne hk1 (fun hcontra => hke hcontra.symm))) hk2
    · rw [if_neg hk] at h
      have hname : dupCandidate base attempt = name := by
        injection h with h'
        exact congrArg Prod.fst h'
      have hused : (path ++ dupCandidate base attempt) :: used = used' := by
        injection h with h'
        exact congrArg Prod.snd h'
      subst hname
      refine ⟨hused.symm, hk, attempt, Nat.le_refl attempt, rfl, ?_⟩
      intro k hk1 hk2
      exact absurd hk2 (Nat.not_lt_of_le hk1)

theorem planLoop_keys (cfg : PlanConfig) (fuel : Nat) :
    ∀ l used es, planLoop cfg fuel l used = some es →
    (∀ q ∈ es, (q.target_path ++ q.target_file_name) ∉ used) ∧
    es.Pairwise (fun a b =>
      a.target_path ++ a.target_file_name ≠
        b.target_path ++ b.target_file_name) := by
  intro l
  induction l with
  | nil =>
    intro used es h
    simp only [planLoop] at h
    injection h with h'
    subst h'
    exact ⟨by simp, List.Pairwise.nil⟩
  | cons r rest ih =>
    intro used es h
    simp only [planLoop] at h
    cases hres : reserveTargetName fuel used
        (ensureTrailingSeparator (if r.is_duplicate then cfg.duplicates_dir
          else pathJoin cfg.output_root
            (bucketFromTimestamp (r.captured_at.getD r.modified_at))))
        ((r.captured_at.getD r.modified_at) ++ "." ++ r.file_name) with
    | none => rw [hres] at h; exact absurd h (by simp)
    | some pr =>
      rw [hres] at h
      obtain ⟨name, used'⟩ := pr
      dsimp only at h
      cases hpl : planLoop cfg fuel rest used' with
      | none => rw [hpl] at h; exact absurd h (by simp)
      | some entries =>
        rw [hpl] at h
        simp only at h
        injection h with h'
        subst h'
        obtain ⟨hg1, hg2, -⟩ := reserveTargetGo_spec _ _ fuel 0 used name
          used' hres
        obtain ⟨ihmem, ihpw⟩ := ih used' entries hpl
        have hkey : ∀ q ∈ entries,
            (q.target_path ++ q.target_file_name) ∉ used ∧
            (q.target_path ++ q.target_file_name) ≠
              (ensureTrailingSeparator (if r.is_duplicate then
                cfg.duplicates_dir else pathJoin cfg.output_root
                  (bucketFromTimestamp
                    (r.captured_at.getD r.modified_at)))) ++ name := by
          intro q hq
          have hnm := ihmem q hq
          rw [hg1] at hnm
          rw [List.mem_cons] at hnm
          push_neg at hnm
          exact ⟨hnm.2, hnm.1⟩
        constructor
        · intro q hq
          rw [List.mem_cons] at hq
          cases hq with
          | inl hq => subst hq; exact hg2
          | inr hq => exact (hkey q hq).1
        · rw [List.pairwise_cons]
          refine ⟨?_, ihpw⟩
          intro q hq
          exact fun hcontra => (hkey q hq).2 hcontra.symm

/-- Claim C1: all plan entries produced by one successful call to
generate_plan have pairwise-distinct (target directory, target file
name) pairs, and name reservation resolves collisions by trying the
base name and then dup-suffixed variants with increasing counters,
stopping at the first name whose (directory ++ name) key is not yet
reserved in this planning pass. -/
theorem generate_plan_targets_unique (cfg : PlanConfig) (fuel : Nat)
    (inventory : List InventoryRecord) (out : PlanOutput)
    (h : generatePlan cfg fuel inventory = some out) :
    out.entries.Pairwise (fun a b =>
      ¬(a.target_path = b.target_path ∧
        a.target_file_name = b.target_file_name)) ∧
    (∀ fuel2 used path base name used',
      reserveTargetName fuel2 used path base = some (name, used') →
      (path ++ name) ∉ used ∧
      ∃ n, name = dupCandidate base n ∧
        ∀ k, k < n → (path ++ dupCandidate base k) ∈ used) := by
  constructor
  · unfold generatePlan at h
    by_cases hemp : inventory.isEmpty = true
    · rw [if_pos hemp] at h
      injection h with h'
      subst h'
      exact List.Pairwise.nil
    · rw [if_neg hemp] at h
      cases hpl : planLoop cfg fuel inventory [] with
      | none => rw [hpl] at h; exact absurd h (by simp)
      | some es =>
        rw [hpl] at h
        simp only at h
        injection h with h'
        subst h'
        have := (planLoop_keys cfg fuel inventory [] es hpl).2
        refine this.imp ?_
        intro a b hne hcontra
        exact hne (by rw [hcontra.1, hcontra.2])
  · intro fuel2 used path base name used' hres
    obtain ⟨-, h2, n, -, hn1, hn2⟩ := reserveTargetGo_spec path base fuel2
      0 used name used' hres
    exact ⟨h2, n, hn1, fun k hk => hn2 k (Nat.zero_le k) hk⟩

/-- Witness for C1 at a concrete inventory of three records that all
collide on the same target directory and base name. -/
theorem generate_plan_targets_unique_witness :
    pOut.entries.Pairwise (fun a b =>
      ¬(a.target_path = b.target_path ∧
        a.target_file_name = b.target_file_name)) ∧
    (∀ fuel2 used path base name used',
      reserveTargetName fuel2 used path base = some (name, used') →
      (path ++ name) ∉ used ∧
      ∃ n, name = dupCandidate base n ∧
        ∀ k, k < n → (path ++ dupCandidate base k) ∈ used) :=
  generate_plan_targets_unique pCfg 5 pInv pOut rfl

/-- Claim C9 (amended): on every successful plan generation the plan
snapshot file is written by first ensuring its parent directory exists
and then writing the file directly at the destination path; the write
is a plain fs write, not an atomic temp-file-and-rename replacement. -/
theorem generate_plan_snapshot_write (cfg : PlanConfig) (fuel : Nat)
    (inv : List InventoryRecord) (out : PlanOutput)
    (h : generatePlan cfg fuel inv = some out) :
    out.snapshotOps =
      [FsOp.ensureParentDir cfg.target_plan_path,
       FsOp.writeFile cfg.target_plan_path] := by
  unfold generatePlan at h
  by_cases hemp : inv.isEmpty = true
  · rw [if_pos hemp] at h
    injection h with h'
    subst h'
    rfl
  · rw [if_neg hemp] at h
    cases hpl : planLoop cfg fuel inv [] with
    | none => rw [hpl] at h; exact absurd h (by simp)
    | some es =>
      rw [hpl] at h
      simp only at h
      injection h with h'
      subst h'
      rfl

/-- Claim C9, as stated, is false: the snapshot write of a successful
plan generation is not atomic — the trace contains a direct write of
the destination and no rename onto it. -/
theorem generate_plan_snapshot_write_counterexample :
    (generatePlan pCfg 1 []).map (fun o =>
      atomicReplacePattern o.snapshotOps pCfg.target_plan_path) =
      some false := by decide

/-- Witness for C9 (amended) on the empty inventory. -/
theorem generate_plan_snapshot_write_witness :
    pOutEmpty.snapshotOps =
      [FsOp.ensureParentDir "/out/plan.json",
       FsOp.writeFile "/out/plan.json"] :=
  generate_plan_snapshot_write pCfg 1 [] pOutEmpty rfl

theorem lookupMap_insert (m : AssocMap) (k' k : String)
    (v : InventoryRecord) :
    lookupMap (mapInsert m k' v) k =
      if k = k' then some v else lookupMap m k := by
  by_cases h : k = k'
  · subst h
    simp [lookupMap, mapInsert, List.find?]
  · have hq : (k' == k) = false := by
      simp only [beq_eq_false_iff_ne, ne_eq]
      exact fun hqp => h hqp.symm
    simp only [lookupMap, mapInsert, List.find?, hq, if_neg h]
    rw [find?_filter_of_imp]
    intro a hpa
    simp only [beq_iff_eq] at hpa ⊢
    simp [hpa, h]

theorem mapRemove_fst (m : AssocMap) (k : String) :
    (mapRemove m k).1 = lookupMap m k := by
  unfold mapRemove lookupMap
  cases m.find? (fun p => p.1 == k) <;> rfl

theorem lookupMap_mapRemove_ne (m : AssocMap) (k k' : String)
    (h : k' ≠ k) :
    lookupMap (mapRemove m k).2 k' = lookupMap m k' := by
  unfold mapRemove
  cases m.find? (fun p => p.1 == k) with
  | none => rfl
  | some p =>
    simp only [lookupMap]
    rw [find?_filter_of_imp]
    intro a hpa
    simp only [beq_iff_eq] at hpa ⊢
    simp [hpa, h]

theorem lookupMap_foldl_frame (l : List InventoryRecord) :
    ∀ (m : AssocMap) (k : String),
    (∀ q ∈ l, q.relative_path ≠ k) →
    lookupMap (l.foldl (fun m r => mapInsert m r.relative_path r) m) k =
      lookupMap m k := by
  induction l with
  | nil => intro m k _; rfl
  | cons r rest ih =>
    intro m k hk
    simp only [List.foldl]
    rw [ih _ _ (fun q hq => hk q (List.mem_cons_of_mem r hq)),
      lookupMap_insert, if_neg ?_]
    intro hco
    exact hk r (List.mem_cons_self r rest) hco.symm

theorem lookupMap_foldl_self (l : List InventoryRecord) :
    ∀ (m : AssocMap),
    (l.map (fun q => q.relative_path)).Nodup →
    ∀ q ∈ l,
      lookupMap (l.foldl (fun m r => mapInsert m r.relative_path r) m)
        q.relative_path = some q := by
  induction l with
  | nil => intro m _ q hq; exact absurd hq (List.not_mem_nil q)
  | cons r rest ih =>
    intro m hnd q hq
    rw [List.map_cons, List.nodup_cons] at hnd
    rw [List.mem_cons] at hq
    cases hq with
    | inl hq =>
      subst hq
      simp only [List.foldl]
      rw [lookupMap_foldl_frame rest _ _ ?_, lookupMap_insert, if_pos rfl]
      intro p hp hco
      exact hnd.1 (hco ▸ List.mem_map_of_mem (fun x => x.relative_path) hp)
    | inr hq =>
      simp only [List.foldl]
      exact ih _ hnd.2 q hq

theorem lookupMap_buildMap_self (l : List InventoryRecord)
    (hnd : (l.map (fun q => q.relative_path)).Nodup) :
    ∀ q ∈ l, lookupMap (buildMap l) q.relative_path = some q :=
  lookupMap_foldl_self l [] hnd

theorem reconcile_cover (L : List Snapshot) :
    ∀ (m : AssocMap), ∀ s ∈ L,
    (∃ q ∈ (reconcile m L).1, matchesSnapshot q s) ∨
      s ∈ (reconcile m L).2.1 := by
  induction L with
  | nil => intro m s hs; exact absurd hs (List.not_mem_nil s)
  | cons s0 rest ih =>
    intro m s hs
    unfold reconcile
    cases hrm : mapRemove m s0.relative_path with
    | mk found m' =>
      cases found with
      | some existing =>
        dsimp only
        by_cases hcond : existing.file_size = s0.file_size ∧
            existing.modified_at = s0.modified_at ∧
            existing.blake3_hash.isSome
        · rw [if_pos hcond]
          rcases hrec : reconcile m' rest with ⟨ru, tp, sk, mf⟩
          dsimp only
          rw [List.mem_cons] at hs
          cases hs with
          | inl hs =>
            subst hs
            left
            refine ⟨_, List.mem_cons_self _ ru, rfl, rfl, rfl, ?_⟩
            simpa using hcond.2.2
          | inr hs =>
            cases ih m' s hs with
            | inl hcase =>
              obtain ⟨q, hq1, hq2⟩ := hcase
              rw [hrec] at hq1
              exact Or.inl ⟨q, List.mem_cons_of_mem _ hq1, hq2⟩
            | inr hcase =>
              rw [hrec] at hcase
              exact Or.inr hcase
        · rw [if_neg hcond]
          rcases hrec : reconcile m' rest with ⟨ru, tp, sk, mf⟩
          dsimp only
          rw [List.mem_cons] at hs
          cases hs with
          | inl hs =>
            subst hs
            exact Or.inr (List.mem_cons_self _ tp)
          | inr hs =>
            cases ih m' s hs with
            | inl hcase =>
              obtain ⟨q, hq1, hq2⟩ := hcase
              rw [hrec] at hq1
              exact Or.inl ⟨q, hq1, hq2⟩
            | inr hcase =>
              rw [hrec] at hcase
              exact Or.inr (List.mem_cons_of_mem _ hcase)
      | none =>
        dsimp only
        rcases hrec : reconcile m' rest with ⟨ru, tp, sk, mf⟩
        dsimp only
        rw [List.mem_cons] at hs
        cases hs with
        | inl hs =>
          subst hs
          exact Or.inr (List.mem_cons_self _ tp)
        | inr hs =>
          cases ih m' s hs with
          | inl hcase =>
            obtain ⟨q, hq1, hq2⟩ := hcase
            rw [hrec] at hq1
            exact Or.inl ⟨q, hq1, hq2⟩
          | inr hcase =>
            rw [hrec] at hcase
            exact Or.inr (List.mem_cons_of_mem _ hcase)

theorem reconcile_paths_perm (L : List Snapshot) :
    ∀ (m : AssocMap),
    List.Perm
      ((reconcile m L).1.map (fun q => q.relative_path) ++
        (reconcile m L).2.1.map (fun s => s.relative_path))
      (L.map (fun s => s.relative_path)) := by
  induction L with
  | nil => intro m; rfl
  | cons s0 rest ih =>
    intro m
    unfold reconcile
    cases hrm : mapRemove m s0.relative_path with
    | mk found m' =>
      cases found with
      | some existing =>
        dsimp only
        by_cases hcond : existing.file_size = s0.file_size ∧
            existing.modified_at = s0.modified_at ∧
            existing.blake3_hash.isSome
        · rw [if_pos hcond]
          rcases hrec : reconcile m' rest with ⟨ru, tp, sk, mf⟩
          dsimp only
          have := ih m'
          rw [hrec] at this
          simpa using List.Perm.cons s0.relative_path this
        · rw [if_neg hcond]
          rcases hrec : reconcile m' rest with ⟨ru, tp, sk, mf⟩
          dsimp only
          have := ih m'
          rw [hrec] at this
          dsimp only at this
          rw [List.map_cons]
          exact List.Perm.trans List.perm_middle
            (List.Perm.cons _ this)
      | none =>
        dsimp only
        rcases hrec : reconcile m' rest with ⟨ru, tp, sk, mf⟩
        dsimp only
        have := ih m'
        rw [hrec] at this
        dsimp only at this
        rw [List.map_cons]
        exact List.Perm.trans List.perm_middle
          (List.Perm.cons _ this)

theorem reconcile_reuse_all (L : List Snapshot) :
    ∀ (m : AssocMap),
    (L.map (fun s => s.relative_path)).Nodup →
    (∀ s ∈ L, ∃ q, lookupMap m s.relative_path = some q ∧
      matchesSnapshot q s) →
    (reconcile m L).2.1 = [] ∧ (reconcile m L).2.2.1 = L.length := by
  induction L with
  | nil => intro m _ _; exact ⟨rfl, rfl⟩
  | cons s0 rest ih =>
    intro m hnd hcov
    rw [List.map_cons, List.nodup_cons] at hnd
    obtain ⟨q, hq1, hq2⟩ := hcov s0 (List.mem_cons_self s0 rest)
    unfold reconcile
    cases hrm : mapRemove m s0.relative_path with
    | mk found m' =>
      have hfound : found = some q := by
        have hfst := mapRemove_fst m s0.relative_path
        rw [hrm] at hfst
        dsimp only at hfst
        rw [hfst, hq1]
      subst hfound
      dsimp only
      have hm' : m' = (mapRemove m s0.relative_path).2 := by rw [hrm]
      have hcond : q.file_size = s0.file_size ∧
          q.modified_at = s0.modified_at ∧ q.blake3_hash.isSome := by
        refine ⟨hq2.2.1, hq2.2.2.1, ?_⟩
        simpa using hq2.2.2.2
      rw [if_pos hcond]
      rcases hrec : reconcile m' rest with ⟨ru, tp, sk, mf⟩
      dsimp only
      have hcov' : ∀ s ∈ rest, ∃ p, lookupMap m' s.relative_path = some p ∧
          matchesSnapshot p s := by
        intro s hs
        obtain ⟨p, hp1, hp2⟩ := hcov s (List.mem_cons_of_mem s0 hs)
        refine ⟨p, ?_, hp2⟩
        rw [hm', lookupMap_mapRemove_ne]
        · exact hp1
        · intro hco
          exact hnd.1 (hco ▸ List.mem_map_of_mem
            (fun x => x.relative_path) hs)
      have hres := ih m' hnd.2 hcov'
      rw [hrec] at hres
      dsimp only at hres
      refine ⟨hres.1, ?_⟩
      rw [List.length_cons, hres.2]

theorem hashAndExtract_ok (env : HashEnv) :
    ∀ (L : List Snapshot) (hashed : List InventoryRecord),
    hashAndExtract env L = .ok hashed →
    hashed.map (fun q => q.relative_path) =
      L.map (fun s => s.relative_path) ∧
    ∀ s ∈ L, ∃ q ∈ hashed, matchesSnapshot q s := by
  intro L
  induction L with
  | nil =>
    intro hashed h
    injection h with h'
    subst h'
    exact ⟨rfl, fun s hs => absurd hs (List.not_mem_nil s)⟩
  | cons s0 rest ih =>
    intro hashed h
    unfold hashAndExtract at h
    cases hh : hashSnapshot env s0 with
    | error e => rw [hh] at h; exact absurd h (by simp)
    | ok q0 =>
      rw [hh] at h
      cases hrest : hashAndExtract env rest with
      | error e => rw [hrest] at h; exact absurd h (by simp)
      | ok qs =>
        rw [hrest] at h
        simp only at h
        injection h with h'
        subst h'
        obtain ⟨ih1, ih2⟩ := ih qs hrest
        have hq0 : matchesSnapshot q0 s0 := by
          unfold hashSnapshot at hh
          cases hf : env.hashFailure s0.relative_path with
          | some e => rw [hf] at hh; exact absurd hh (by simp)
          | none =>
            rw [hf] at hh
            simp only at hh
            injection hh with hh'
            subst hh'
            exact ⟨rfl, rfl, rfl, rfl⟩
        constructor
        · rw [List.map_cons, List.map_cons, ih1, hq0.1]
        · intro s hs
          rw [List.mem_cons] at hs
          cases hs with
          | inl hs => exact ⟨q0, List.mem_cons_self q0 qs, hs ▸ hq0⟩
          | inr hs =>
            obtain ⟨q, hqm, hqmat⟩ := ih2 s hs
            exact ⟨q, List.mem_cons_of_mem q0 hqm, hqmat⟩

theorem markDupGo_map_hash (l : List InventoryRecord) :
    ∀ seen, (markDupGo seen l).1.map (fun q => q.file_hash) =
      l.map (fun q => q.file_hash) := by
  induction l with
  | nil => intro seen; rfl
  | cons r rest ih =>
    intro seen
    unfold markDupGo
    by_cases hc : seen.contains r.file_hash = true
    · rw [if_pos hc]
      rcases hmk : markDupGo seen rest with ⟨l', n'⟩
      dsimp only
      have := ih seen
      rw [hmk] at this
      rw [List.map_cons, List.map_cons, this]
    · rw [if_neg hc]
      rcases hmk : markDupGo (r.file_hash :: seen) rest with ⟨l', n'⟩
      dsimp only
      have := ih (r.file_hash :: seen)
      rw [hmk] at this
      rw [List.map_cons, List.map_cons, this]

theorem markDupGo_map_path (l : List InventoryRecord) :
    ∀ seen, (markDupGo seen l).1.map (fun q => q.relative_path) =
      l.map (fun q => q.relative_path) := by
  induction l with
  | nil => intro seen; rfl
  | cons r rest ih =>
    intro seen
    unfold markDupGo
    by_cases hc : seen.contains r.file_hash = true
    · rw [if_pos hc]
      rcases hmk : markDupGo seen rest with ⟨l', n'⟩
      dsimp only
      have := ih seen
      rw [hmk] at this
      rw [List.map_cons, List.map_cons, this]
    · rw [if_neg hc]
      rcases hmk : markDupGo (r.file_hash :: seen) rest with ⟨l', n'⟩
      dsimp only
      have := ih (r.file_hash :: seen)
      rw [hmk] at this
      rw [List.map_cons, List.map_cons, this]

theorem markDupGo_mem_strip (l : List InventoryRecord) :
    ∀ seen, ∀ q ∈ l, ∃ b,
      { q with is_duplicate := b } ∈ (markDupGo seen l).1 := by
  induction l with
  | nil => intro seen q hq; exact absurd hq (List.not_mem_nil q)
  | cons r rest ih =>
    intro seen q hq
    unfold markDupGo
    rw [List.mem_cons] at hq
    by_cases hc : seen.contains r.file_hash = true
    · rw [if_pos hc]
      rcases hmk : markDupGo seen rest with ⟨l', n'⟩
      dsimp only
      cases hq with
      | inl hq =>
        subst hq
        exact ⟨true, List.mem_cons_self _ l'⟩
      | inr hq =>
        obtain ⟨b, hb⟩ := ih seen q hq
        rw [hmk] at hb
        exact ⟨b, List.mem_cons_of_mem _ hb⟩
    · rw [if_neg hc]
      rcases hmk : markDupGo (r.file_hash :: seen) rest with ⟨l', n'⟩
      dsimp only
      cases hq with
      | inl hq =>
        subst hq
        exact ⟨false, List.mem_cons_self _ l'⟩
      | inr hq =>
        obtain ⟨b, hb⟩ := ih (r.file_hash :: seen) q hq
        rw [hmk] at hb
        exact ⟨b, List.mem_cons_of_mem _ hb⟩

theorem markDupGo_getD (l : List InventoryRecord) :
    ∀ seen i, i < l.length →
    ((markDupGo seen l).1.getD i defaultRecord).is_duplicate =
      (seen.contains ((l.getD i defaultRecord).file_hash) ||
        ((l.take i).map (fun q => q.file_hash)).contains
          ((l.getD i defaultRecord).file_hash)) := by
  induction l with
  | nil =>
    intro seen i hi
    exact absurd hi (Nat.not_lt_zero i)
  | cons r rest ih =>
    intro seen i hi
    unfold markDupGo
    by_cases hc : seen.contains r.file_hash = true
    · rw [if_pos hc]
      rcases hmk : markDupGo seen rest with ⟨l', n'⟩
      dsimp only
      cases i with
      | zero =>
        rw [List.getD_cons_zero, List.getD_cons_zero, List.take_zero, hc]
        rfl
      | succ j =>
        have hj : j < rest.length := Nat.lt_of_succ_lt_succ hi
        have := ih seen j hj
        rw [hmk] at this
        dsimp only at this
        rw [List.getD_cons_succ, List.getD_cons_succ, List.take_succ_cons,
          List.map_cons, List.contains_cons, this]
        by_cases hx : ((rest.getD j defaultRecord).file_hash ==
            r.file_hash) = true
        · have hxeq : (rest.getD j defaultRecord).file_hash =
              r.file_hash := by simpa using hx
          rw [hxeq, hc]
          simp
        · have hx' : ((rest.getD j defaultRecord).file_hash ==
              r.file_hash) = false := by
            cases hv : ((rest.getD j defaultRecord).file_hash ==
                r.file_hash) with
            | true => exact absurd hv hx
            | false => rfl
          rw [hx']
          simp
    · rw [if_neg hc]
      have hc' : seen.contains r.file_hash = false := by
        cases hv : seen.contains r.file_hash with
        | true => exact absurd hv hc
        | false => rfl
      rcases hmk : markDupGo (r.file_hash :: seen) rest with ⟨l', n'⟩
      dsimp only
      cases i with
      | zero =>
        rw [List.getD_cons_zero, List.getD_cons_zero, List.take_zero, hc']
        rfl
      | succ j =>
        have hj : j < rest.length := Nat.lt_of_succ_lt_succ hi
        have := ih (r.file_hash :: seen) j hj
        rw [hmk] at this
        dsimp only at this
        rw [List.getD_cons_succ, List.getD_cons_succ, List.take_succ_cons,
          List.map_cons, List.contains_cons, this, List.contains_cons]
        cases hx : ((rest.getD j defaultRecord).file_hash ==
            r.file_hash) <;>
          cases hy : seen.contains ((rest.getD j defaultRecord).file_hash) <;>
            simp [hx, hy]

theorem markDupGo_count (l : List InventoryRecord) :
    ∀ seen h,
    ((markDupGo seen l).1.filter (fun q => q.file_hash == h &&
        !q.is_duplicate)).length =
      (if seen.contains h = true then 0
        else if (l.map (fun q => q.file_hash)).contains h = true then 1
        else 0) := by
  induction l with
  | nil =>
    intro seen h
    unfold markDupGo
    by_cases hc : seen.contains h = true <;> simp [hc]
  | cons r rest ih =>
    intro seen h
    unfold markDupGo
    by_cases hc : seen.contains r.file_hash = true
    · rw [if_pos hc]
      rcases hmk : markDupGo seen rest with ⟨l', n'⟩
      dsimp only
      have := ih seen h
      rw [hmk] at this
      dsimp only at this
      rw [List.filter_cons]
      have hpred : (({ r with is_duplicate := true } :
          InventoryRecord).file_hash == h &&
          !({ r with is_duplicate := true } :
            InventoryRecord).is_duplicate) = false := by
        simp
      rw [hpred]
      simp only [Bool.false_eq_true, if_false]
      rw [this, List.map_cons, List.contains_cons]
      by_cases hsh : seen.contains h = true
      · rw [if_pos hsh, if_pos hsh]
      · rw [if_neg hsh, if_neg hsh]
        have hrh : (h == r.file_hash) = false := by
          cases hv : (h == r.file_hash) with
          | true =>
            have : h = r.file_hash := by simpa using hv
            rw [this] at hsh
            exact absurd hc hsh
          | false => rfl
        rw [hrh]
        simp
    · rw [if_neg hc]
      have hc' : seen.contains r.file_hash = false := by
        cases hv : seen.contains r.file_hash with
        | true => exact absurd hv hc
        | false => rfl
      rcases hmk : markDupGo (r.file_hash :: seen) rest with ⟨l', n'⟩
      dsimp only
      have := ih (r.file_hash :: seen) h
      rw [hmk] at this
      dsimp only at this
      rw [List.filter_cons]
      by_cases hrh : (r.file_hash == h) = true
      · have hrh' : r.file_hash = h := by simpa using hrh
        have hpred : (({ r with is_duplicate := false } :
            InventoryRecord).file_hash == h &&
            !({ r with is_duplicate := false } :
              InventoryRecord).is_duplicate) = true := by
          simp [hrh']
        rw [hpred]
        simp only [if_true]
        rw [List.length_cons, this, List.contains_cons]
        have hh1 : (h == r.file_hash) = true := by
          simp [hrh']
        rw [hh1]
        simp only [Bool.true_or, if_true]
        subst hrh'
        rw [if_neg (by rw [hc']; exact Bool.false_ne_true :
          ¬seen.contains r.file_hash = true)]
        rw [List.map_cons, List.contains_cons]
        simp [hc']
      · have hrh' : (r.file_hash == h) = false := by
          cases hv : (r.file_hash == h) with
          | true => exact absurd hv hrh
          | false => rfl
        have hpred : (({ r with is_duplicate := false } :
            InventoryRecord).file_hash == h &&
            !({ r with is_duplicate := false } :
              InventoryRecord).is_duplicate) = false := by
          simp [hrh']
        rw [hpred]
        simp only [Bool.false_eq_true, if_false]
        rw [this, List.contains_cons, List.map_cons, List.contains_cons]
        have hh1 : (h == r.file_hash) = false := by
          cases hv : (h == r.file_hash) with
          | true =>
            have : h = r.file_hash := by simpa using hv
            rw [this] at hrh'
            simp at hrh'
          | false => rfl
        rw [hh1]
        simp

theorem performScan_inventory (env : HashEnv) (files : List Snapshot)
    (prior : List InventoryRecord) (r : ScanResult)
    (hr : performScan env true files prior = .ok r) :
    ∃ all, reuseFreshConcat env files prior = .ok all ∧
      r.inventory = sortBy scanLe (markDuplicates all).1 := by
  unfold performScan at hr
  unfold reuseFreshConcat
  by_cases hSe : (enumerateFiles true files).isEmpty = true
  · rw [if_pos hSe] at hr
    have hnil : enumerateFiles true files = [] := List.isEmpty_iff.mp hSe
    rw [hnil]
    injection hr with hr'
    subst hr'
    exact ⟨[], rfl, rfl⟩
  · rw [if_neg hSe] at hr
    dsimp only at hr ⊢
    rcases hrec : reconcile (buildMap prior) (enumerateFiles true files)
      with ⟨ru, tp, sk, mf⟩
    rw [hrec] at hr
    dsimp only at hr ⊢
    cases hhe : hashAndExtract env tp with
    | error e =>
      rw [hhe] at hr
      exact absurd hr (by simp)
    | ok hashed =>
      rw [hhe] at hr
      simp only at hr
      injection hr with hr'
      subst hr'
      exact ⟨ru ++ hashed, rfl, rfl⟩

/-- Claim C8: when the scan root directory does not exist, perform_scan
returns a success summary with all counts zero and replaces the stored
inventory with the empty set, rather than returning an error. -/
theorem scan_missing_root (env : HashEnv) (files : List Snapshot)
    (prior : List InventoryRecord) :
    performScan env false files prior =
      .ok { summary := { total_files := 0, hashed_files := 0,
                         skipped_files := 0, duplicate_files := 0 },
            inventory := [] } := rfl

/-- Claim C3: after a scan, duplicate marking follows the
reused-then-fresh concatenation order — a record is flagged as a
duplicate exactly when an earlier record of that concatenation carries
the same legacy hash, so the first record of each hash group is the one
with is_duplicate = false; moreover every scanned file appears in the
stored inventory under its relative path, and for each legacy hash
present in the inventory exactly one record carries
is_duplicate = false. -/
theorem scan_duplicate_marking (env : HashEnv) (files : List Snapshot)
    (prior : List InventoryRecord) (all : List InventoryRecord)
    (r : ScanResult)
    (hall : reuseFreshConcat env files prior = .ok all)
    (hr : performScan env true files prior = .ok r) :
    (∀ i, i < all.length →
      ((markDuplicates all).1.getD i defaultRecord).is_duplicate =
        ((all.take i).map (fun q => q.file_hash)).contains
          ((all.getD i defaultRecord).file_hash)) ∧
    (∀ s ∈ files, ∃ q ∈ r.inventory,
      q.relative_path = s.relative_path) ∧
    (∀ h, (∃ q ∈ r.inventory, q.file_hash = h) →
      (r.inventory.filter (fun q => q.file_hash == h &&
        !q.is_duplicate)).length = 1) := by
  obtain ⟨all', hall', hinv⟩ := performScan_inventory env files prior r hr
  have hae : all = all' := by
    rw [hall] at hall'
    exact Except.ok.inj hall'
  subst hae
  unfold reuseFreshConcat at hall
  dsimp only at hall
  rcases hrec : reconcile (buildMap prior) (enumerateFiles true files)
    with ⟨ru, tp, sk, mf⟩
  rw [hrec] at hall
  dsimp only at hall
  cases hhe : hashAndExtract env tp with
  | error e =>
    rw [hhe] at hall
    exact absurd hall (by simp)
  | ok hashed =>
    rw [hhe] at hall
    simp only at hall
    injection hall with hall'
    refine ⟨?_, ?_, ?_⟩
    · intro i hi
      have hpos := markDupGo_getD all [] i hi
      show ((markDupGo [] all).1.getD i defaultRecord).is_duplicate = _
      rw [hpos]
      simp
    · intro s hs
      have hsS : s ∈ enumerateFiles true files := by
        exact ((sortBy_perm (fun a b =>
          strLe a.relative_path b.relative_path) files).mem_iff).mpr hs
      have hcov := reconcile_cover (enumerateFiles true files)
        (buildMap prior) s hsS
      rw [hrec] at hcov
      dsimp only at hcov
      have hexall : ∃ q ∈ all, q.relative_path = s.relative_path := by
        cases hcov with
        | inl hc =>
          obtain ⟨q, hq1, hq2⟩ := hc
          exact ⟨q, hall' ▸ List.mem_append_left hashed hq1, hq2.1⟩
        | inr hc =>
          obtain ⟨q, hq1, hq2⟩ :=
            (hashAndExtract_ok env tp hashed hhe).2 s hc
          exact ⟨q, hall' ▸ List.mem_append_right ru hq1, hq2.1⟩
      obtain ⟨q, hqall, hqpath⟩ := hexall
      obtain ⟨b, hb⟩ := markDupGo_mem_strip all [] q hqall
      refine ⟨{ q with is_duplicate := b }, ?_, hqpath⟩
      rw [hinv]
      exact ((sortBy_perm scanLe _).mem_iff).mpr hb
    · intro h hex
      obtain ⟨q, hqmem, hqh⟩ := hex
      have hperm : List.Perm r.inventory (markDuplicates all).1 := by
        rw [hinv]
        exact sortBy_perm scanLe _
      have hqmarked : q ∈ (markDuplicates all).1 := hperm.mem_iff.mp hqmem
      have hmem2 : h ∈ all.map (fun q => q.file_hash) := by
        rw [← markDupGo_map_hash all []]
        exact hqh ▸ List.mem_map_of_mem (fun q => q.file_hash) hqmarked
      have hcont : (all.map (fun q => q.file_hash)).contains h = true :=
        List.elem_iff.mpr hmem2
      have hcount := markDupGo_count all [] h
      have hfperm := hperm.filter
        (fun q => q.file_hash == h && !q.is_duplicate)
      rw [hfperm.length_eq]
      show ((markDupGo [] all).1.filter
        (fun q => q.file_hash == h && !q.is_duplicate)).length = 1
      rw [hcount]
      rw [if_neg (by simp : ¬([] : List String).contains h = true)]
      rw [if_pos hcont]

/-- Witness for C3 on a concrete scan of three files, two of which have
identical content under different paths. -/
theorem scan_duplicate_marking_witness :
    (∀ i, i < sAll.length →
      ((markDuplicates sAll).1.getD i defaultRecord).is_duplicate =
        ((sAll.take i).map (fun q => q.file_hash)).contains
          ((sAll.getD i defaultRecord).file_hash)) ∧
    (∀ s ∈ sFiles, ∃ q ∈ sRes.inventory,
      q.relative_path = s.relative_path) ∧
    (∀ h, (∃ q ∈ sRes.inventory, q.file_hash = h) →
      (sRes.inventory.filter (fun q => q.file_hash == h &&
        !q.is_duplicate)).length = 1) :=
  scan_duplicate_marking sEnv sFiles [] sAll sRes (by rfl) (by rfl)

/-- After a scan, every enumerated file is represented by an inventory
row that matches it (same path, size, modified timestamp, with a strong
hash recorded), and the inventory's relative paths are distinct. -/
theorem performScan_inventory_facts (env : HashEnv)
    (files : List Snapshot) (prior : List InventoryRecord)
    (r : ScanResult)
    (hnd : (files.map (fun s => s.relative_path)).Nodup)
    (hr : performScan env true files prior = .ok r) :
    (∀ s ∈ enumerateFiles true files, ∃ q ∈ r.inventory,
      matchesSnapshot q s) ∧
    (r.inventory.map (fun q => q.relative_path)).Nodup := by
  obtain ⟨all, hall, hinv⟩ := performScan_inventory env files prior r hr
  unfold reuseFreshConcat at hall
  dsimp only at hall
  rcases hrec : reconcile (buildMap prior) (enumerateFiles true files)
    with ⟨ru, tp, sk, mf⟩
  rw [hrec] at hall
  dsimp only at hall
  cases hhe : hashAndExtract env tp with
  | error e =>
    rw [hhe] at hall
    exact absurd hall (by simp)
  | ok hashed =>
    rw [hhe] at hall
    simp only at hall
    injection hall with hall'
    constructor
    · intro s hs
      have hcov := reconcile_cover (enumerateFiles true files)
        (buildMap prior) s hs
      rw [hrec] at hcov
      dsimp only at hcov
      have hex : ∃ q ∈ all, matchesSnapshot q s := by
        cases hcov with
        | inl hc =>
          obtain ⟨q, hm1, hm2⟩ := hc
          exact ⟨q, hall' ▸ List.mem_append_left hashed hm1, hm2⟩
        | inr hc =>
          obtain ⟨q, hm1, hm2⟩ :=
            (hashAndExtract_ok env tp hashed hhe).2 s hc
          exact ⟨q, hall' ▸ List.mem_append_right ru hm1, hm2⟩
      obtain ⟨q, hqall, hqmat⟩ := hex
      obtain ⟨b, hb⟩ := markDupGo_mem_strip all [] q hqall
      refine ⟨{ q with is_duplicate := b }, ?_, hqmat⟩
      rw [hinv]
      exact ((sortBy_perm scanLe _).mem_iff).mpr hb
    · have hpm : List.Perm
          (r.inventory.map (fun q => q.relative_path))
          ((markDuplicates all).1.map (fun q => q.relative_path)) := by
        rw [hinv]
        exact (sortBy_perm scanLe _).map _
      have hmp : (markDuplicates all).1.map (fun q => q.relative_path) =
          all.map (fun q => q.relative_path) := markDupGo_map_path all []
      have hperm2 : List.Perm (all.map (fun q => q.relative_path))
          ((enumerateFiles true files).map (fun s => s.relative_path)) := by
        rw [← hall', List.map_append,
          (hashAndExtract_ok env tp hashed hhe).1]
        have hpp := reconcile_paths_perm (enumerateFiles true files)
          (buildMap prior)
        rw [hrec] at hpp
        dsimp only at hpp
        exact hpp
      have hperm3 : List.Perm
          ((enumerateFiles true files).map (fun s => s.relative_path))
          (files.map (fun s => s.relative_path)) :=
        (sortBy_perm (fun a b => strLe a.relative_path b.relative_path)
          files).map _
      have hperm2' : List.Perm
          ((markDuplicates all).1.map (fun q => q.relative_path))
          ((enumerateFiles true files).map (fun s => s.relative_path)) := by
        rw [hmp]
        exact hperm2
      exact ((hpm.trans (hperm2'.trans hperm3)).nodup_iff).mpr hnd

/-- Claim C2: rescanning an unchanged directory reuses every inventory
row: when a first scan succeeded on a set of files with distinct
relative paths, a second scan over the same files and the stored
inventory succeeds for any hashing environment (no hash is computed at
all) and reports hashed_files = 0 and skipped_files = total_files. -/
theorem scan_unchanged_rescan (env env2 : HashEnv)
    (files : List Snapshot) (prior : List InventoryRecord)
    (r1 : ScanResult)
    (hnd : (files.map (fun s => s.relative_path)).Nodup)
    (h1 : performScan env true files prior = .ok r1) :
    ∃ r2, performScan env2 true files r1.inventory = .ok r2 ∧
      r2.summary.hashed_files = 0 ∧
      r2.summary.skipped_files = r2.summary.total_files ∧
      r2.summary.total_files = files.length := by
  obtain ⟨hcov, hndinv⟩ :=
    performScan_inventory_facts env files prior r1 hnd h1
  by_cases hSe : (enumerateFiles true files).isEmpty = true
  · have hnil : enumerateFiles true files = [] := List.isEmpty_iff.mp hSe
    have hlen := (sortBy_perm (fun a b =>
      strLe a.relative_path b.relative_path) files).length_eq
    have he : sortBy (fun a b => strLe a.relative_path b.relative_path)
        files = [] := hnil
    rw [he] at hlen
    refine ⟨⟨⟨0, 0, 0, 0⟩, []⟩, ?_, rfl, rfl, ?_⟩
    · unfold performScan
      rw [hnil]
      rfl
    · exact hlen
  · have hSnd : ((enumerateFiles true files).map
        (fun s => s.relative_path)).Nodup := by
      have hp : List.Perm
          ((enumerateFiles true files).map (fun s => s.relative_path))
          (files.map (fun s => s.relative_path)) :=
        (sortBy_perm (fun a b => strLe a.relative_path b.relative_path)
          files).map _
      exact (hp.nodup_iff).mpr hnd
    have hcov2 : ∀ s ∈ enumerateFiles true files, ∃ q,
        lookupMap (buildMap r1.inventory) s.relative_path = some q ∧
        matchesSnapshot q s := by
      intro s hs
      obtain ⟨q, hqmem, hqmat⟩ := hcov s hs
      refine ⟨q, ?_, hqmat⟩
      have hlk := lookupMap_buildMap_self r1.inventory hndinv q hqmem
      rw [hqmat.1] at hlk
      exact hlk
    have hreuse := reconcile_reuse_all (enumerateFiles true files)
      (buildMap r1.inventory) hSnd hcov2
    rcases hrec2 : reconcile (buildMap r1.inventory)
      (enumerateFiles true files) with ⟨ru2, tp2, sk2, m2⟩
    rw [hrec2] at hreuse
    dsimp only at hreuse
    have hps2 : performScan env2 true files r1.inventory =
        .ok { summary :=
                { total_files := (enumerateFiles true files).length,
                  hashed_files := 0,
                  skipped_files := sk2,
                  duplicate_files := (markDuplicates (ru2 ++ [])).2 },
              inventory := sortBy scanLe (markDuplicates (ru2 ++ [])).1 } := by
      unfold performScan
      rw [if_neg hSe]
      dsimp only
      rw [hrec2]
      dsimp only
      rw [hreuse.1]
      rfl
    refine ⟨_, hps2, rfl, ?_, ?_⟩
    · exact hreuse.2
    · exact (sortBy_perm (fun a b =>
        strLe a.relative_path b.relative_path) files).length_eq

/-- Witness for C2: after scanning the three sample files, rescanning
them against the stored inventory — under an environment whose hashing
always fails — still succeeds with hashed_files = 0 and
skipped_files = total_files = 3. -/
theorem scan_unchanged_rescan_witness :
    ∃ r2, performScan sEnvFail true sFiles sRes.inventory = .ok r2 ∧
      r2.summary.hashed_files = 0 ∧
      r2.summary.skipped_files = r2.summary.total_files ∧
      r2.summary.total_files = sFiles.length :=
  scan_unchanged_rescan sEnv sEnvFail sFiles [] sRes (by decide) (by rfl)

end PhotoTidy
